import Mathlib

set_option maxRecDepth 8192

/-!
Verification of the vbscore match-state engine against its specification.

The definitions below are a shallow embedding of the final, consolidated
design of the repository: `src/src/match_manager.py` (match store, action
state machine, session registry, broadcast, archive codec),
`src/src/rate_limiter.py` (sliding-window rate limiter) and
`src/state-decode.py` (archive token decoder).  Machine integers are
modelled as `Nat`/`Int`; wall-clock timestamps as `ℚ`; Python exceptions
as explicit `Except`/`Option` results or an explicit `crash` output.
-/

namespace VBScore

/-! ## Dynamic match state (`match_manager.py`, `create_match` / `process_admin_action`)

A match's dynamic record holds `history` (a list of sets, each set the
ordered list of point events, an event being the scoring team 0 or 1),
the `done` flag, the `last_updated` wall-clock stamp and the derived
viewer count. -/

structure MatchDyn where
  history : List (List Nat)
  done : Bool
  lastUpdated : ℚ
  viewers : Nat
deriving Repr, DecidableEq

/-- The payload of an admin action message: the `action` string and the
optional `team` field, both absent when the key is missing from the JSON
object. -/
structure Update where
  action : Option String
  team : Option Int
deriving Repr, DecidableEq

/-- What `process_admin_action` emits after (possibly) mutating the match:
nothing (`silent`: an early return, or the final `if not match["done"]`
guard suppressing the broadcast), a full-state broadcast, the terminal
redirect broadcast of an ended match, or an uncaught `IndexError`
(`crash`: `history[-1]` on an empty history, unreachable in the running
system). -/
inductive Output where
  | silent
  | stateBroadcast
  | redirectBroadcast
  | crash
deriving Repr, DecidableEq

/-- The common tail of `process_admin_action`: fall through to
`if not match["done"]: await self.broadcast_match_state(match_id)`. -/
def finishStep (m : MatchDyn) : MatchDyn × Output :=
  (m, if m.done then Output.silent else Output.stateBroadcast)

/-- The team a `point` update scores for, given that its `team` field
passed the `team != 0 and team != 1` guard. -/
def paTeam (u : Update) : Nat :=
  if u.team = some 0 then 0 else 1

/-- Shallow embedding of `MatchManager.process_admin_action`
(src/src/match_manager.py lines 336-400), acting on one match's dynamic
record.  `now` is the value `time.time()` would return during the call.
Mutation of the Python dict becomes functional record update; the
in-place mutation of the current set `match["history"][-1]` becomes
replacing the last element of `history`. -/
def processAdminAction (now : ℚ) (m : MatchDyn) (u : Update) : MatchDyn × Output :=
  match u.action with
  | none => (m, Output.silent)
  | some a =>
    if a = "" then (m, Output.silent)
    else if a = "point" then
      if u.team = some 0 ∨ u.team = some 1 then
        match m.history.getLast? with
        | none => (m, Output.crash)
        | some cur =>
          if cur.count (paTeam u) < 99 then
            finishStep { m with history := m.history.dropLast ++ [cur ++ [paTeam u]],
                                lastUpdated := now }
          else
            finishStep m
      else (m, Output.silent)
    else if a = "undo" then
      match m.history.getLast? with
      | none => (m, Output.crash)
      | some cur =>
        if cur = [] then finishStep m
        else finishStep { m with history := m.history.dropLast ++ [cur.dropLast],
                                 lastUpdated := now }
    else if a = "new_set" ∨ a = "end_match" then
      if a = "end_match" ∨ 5 ≤ m.history.length then
        match m.history.getLast? with
        | none => ({ m with lastUpdated := now, done := true }, Output.crash)
        | some cur =>
          ({ m with lastUpdated := now, done := true,
                    history := if cur = [] then m.history.dropLast else m.history },
           Output.redirectBroadcast)
      else
        finishStep { m with lastUpdated := now, done := false,
                            history := m.history ++ [[]] }
    else
      finishStep m

/-- One step of the admin-action machine, discarding the broadcast output. -/
def step (m : MatchDyn) (tu : ℚ × Update) : MatchDyn :=
  (processAdminAction tu.1 m tu.2).1

/-- Run a timed sequence of admin actions. -/
def run (m : MatchDyn) (us : List (ℚ × Update)) : MatchDyn :=
  us.foldl step m

/-- The dynamic record of a freshly created match (`create_match`,
src/src/match_manager.py lines 249-254): one empty set, not done, no
viewers. -/
def initMatch (t : ℚ) : MatchDyn :=
  { history := [[]], done := false, lastUpdated := t, viewers := 0 }

/-- The `point` action message for a team. -/
def pointU (t : Int) : Update := { action := some "point", team := some t }

/-- The `undo` action message. -/
def undoU : Update := { action := some "undo", team := none }

/-- The `new_set` action message. -/
def newSetU : Update := { action := some "new_set", team := none }

/-- The `end_match` action message. -/
def endMatchU : Update := { action := some "end_match", team := none }

/-- The scoring team as stored in the event list, for a valid `team`
payload value. -/
def teamNat (t : Int) : Nat :=
  if t = 0 then 0 else 1

/-- The admin-action sequence of a best-of-5 game played to the end with
no explicit `end_match`: for each `(k, t)` block, `k` `point` messages
for team `t` followed by one `new_set` message. -/
def blockSeq : List (Nat × Int) → List (ℚ × Update)
  | [] => []
  | (k, t) :: rest =>
    List.replicate k ((0 : ℚ), pointU t) ++ [((0 : ℚ), newSetU)] ++ blockSeq rest

/-- A timed admin-action sequence as the running system actually delivers
it: `process_admin_action` is only invoked while the match is live (once
`done` turns true every session is redirected and closed), and — the
amendment C1 forces — each `new_set` is issued with a non-empty current
set. -/
def goodSeq : MatchDyn → List (ℚ × Update) → Prop
  | _, [] => True
  | m, tu :: rest =>
    m.done = false ∧ (tu.2.action = some "new_set" → m.history.getLast? ≠ some []) ∧
      goodSeq (step m tu) rest

instance goodSeqDecidable :
    (m : MatchDyn) → (us : List (ℚ × Update)) → Decidable (goodSeq m us)
  | _, [] => Decidable.isTrue trivial
  | m, tu :: rest =>
    have : Decidable (goodSeq (step m tu) rest) := goodSeqDecidable _ _
    decidable_of_iff
      (m.done = false ∧ (tu.2.action = some "new_set" → m.history.getLast? ≠ some []) ∧
        goodSeq (step m tu) rest) Iff.rfl

/-- A concrete best-of-5 block list: one team-0 point then `new_set`,
five times over. -/
def c2ps : List (Nat × Int) := [(1, 0), (1, 0), (1, 0), (1, 0), (1, 0)]

/-- A current-set action for C3: a `point` message for a team, or `undo`. -/
inductive PU where
  | point (t : Int)
  | undo
deriving Repr, DecidableEq

/-- The admin message a current-set action stands for. -/
def PU.toUpdate : PU → ℚ × Update
  | PU.point t => ((0 : ℚ), pointU t)
  | PU.undo => ((0 : ℚ), undoU)

/-- The specification's reference model of the current set under
point/undo (spec §4.3/§8): a point appends the team's event unless that
team's count is already 99; an undo removes the most recent remaining
event regardless of team and does nothing on an empty set.  The final
per-team tally is the count of events not cancelled by a later undo. -/
def netEvents : List PU → List Nat → List Nat
  | [], cur => cur
  | PU.point t :: rest, cur =>
      netEvents rest (if cur.count (teamNat t) < 99 then cur ++ [teamNat t] else cur)
  | PU.undo :: rest, cur => netEvents rest cur.dropLast

/-- A registered viewer session as `broadcast_match_state` sees it: its
session id and whether `send_json` on its websocket succeeds (`ok`) or
raises. -/
structure Sess where
  sid : String
  ok : Bool
deriving Repr, DecidableEq

/-- Shallow embedding of `MatchManager.broadcast_match_state`
(src/src/match_manager.py lines 403-408): iterate over the session list
in order and send the snapshot to each; there is no try/except around
the send, so a raising send propagates and ends the loop.  Returns the
sessions that were actually sent to and whether an exception escaped. -/
def sendAll : List Sess → List Sess × Bool
  | [] => ([], false)
  | s :: rest =>
    if s.ok then
      ((sendAll rest).1.cons s, (sendAll rest).2)
    else ([], true)

/-- The outcome of one admission request through the `rate_limit`
decorator: the wrapped endpoint runs (`allowed`), a 429 response with a
`Retry-After` header is returned (`denied`), or — only possible when the
configured limit is 0 — `min([])` raises `ValueError` (`error`). -/
inductive RLResult where
  | allowed
  | denied (retryAfter : ℤ)
  | error
deriving Repr, DecidableEq

/-- Shallow embedding of one pass through the `rate_limit` decorator's
critical section (src/src/rate_limiter.py lines 54-68) for a single
caller key: drop timestamps `t` with `now - t ≥ window`, deny when at
least `limit` remain (the pruned list is kept, nothing is recorded),
otherwise record `now` and allow.  `int()` applied to the retry value,
which is positive whenever the oldest timestamp was retained, is
`Int.floor`. -/
def rateLimitStep (limit : Nat) (window : ℚ) (tracker : List ℚ) (now : ℚ) :
    List ℚ × RLResult :=
  let pruned := tracker.filter (fun t => now - t < window)
  if limit ≤ pruned.length then
    match pruned.min? with
    | some oldest => (pruned, RLResult.denied ⌊window - (now - oldest)⌋)
    | none => (pruned, RLResult.error)
  else
    (pruned ++ [now], RLResult.allowed)

/-- A sequence of admission requests for one caller key, threading the
per-key timestamp tracker through `rateLimitStep`. -/
def rateLimitRun (limit : Nat) (window : ℚ) : List ℚ → List ℚ → List ℚ × List RLResult
  | tracker, [] => (tracker, [])
  | tracker, now :: rest =>
    ((rateLimitRun limit window (rateLimitStep limit window tracker now).1 rest).1,
      (rateLimitStep limit window tracker now).2 ::
        (rateLimitRun limit window (rateLimitStep limit window tracker now).1 rest).2)

/-- Twenty requests at time 0 for the C7 witness. -/
def c7ts : List ℚ := List.replicate 20 0

/-- A registered websocket session: the random session id and the
identity of the underlying websocket connection (a numeric handle;
Python compares connections with `!=` on object identity). -/
structure Session where
  sessionId : String
  ws : Nat
deriving Repr, DecidableEq

/-- The `MatchManager` tables touched by `add_session` /
`remove_session`: `self._matches` and `self._sessions`, both dicts keyed
by match id, modelled as association lists. -/
structure Manager where
  matchTbl : List (String × MatchDyn)
  sessions : List (String × List Session)
deriving Repr, DecidableEq

/-- Python dict lookup on the association-list model. -/
def lookupE {β : Type} (k : String) : List (String × β) → Option β
  | [] => none
  | (k', v) :: rest => if k' = k then some v else lookupE k rest

/-- Python dict assignment `d[k] = v` for a key already present (the
only way the session operations assign). -/
def setEntry {β : Type} (k : String) (v : β) : List (String × β) → List (String × β)
  | [] => []
  | (k', v') :: rest => if k' = k then (k', v) :: rest else (k', v') :: setEntry k v rest

/-- The exceptions `add_session` can raise, plus the `KeyError` that
`self._sessions[match_id]` would raise if a match existed without a
session-list entry (the two tables are created and deleted together, so
this never occurs for well-formed managers). -/
inductive AddErr where
  | matchNotFound
  | matchEnded
  | keyError
deriving Repr, DecidableEq

/-- Shallow embedding of `MatchManager.add_session`
(src/src/match_manager.py lines 285-304).  The caller supplies the fresh
random session record `s`; the returned manager is the post-call state
(exceptions are raised before any mutation) and the `Except` carries the
raised exception or the returned session id. -/
def addSession (mgr : Manager) (matchId : String) (s : Session) :
    Manager × Except AddErr String :=
  match lookupE matchId mgr.matchTbl with
  | none => (mgr, Except.error AddErr.matchNotFound)
  | some md =>
    if md.done then (mgr, Except.error AddErr.matchEnded)
    else
      match lookupE matchId mgr.sessions with
      | none => (mgr, Except.error AddErr.keyError)
      | some l =>
        ({ matchTbl := setEntry matchId { md with viewers := (l ++ [s]).length } mgr.matchTbl,
           sessions := setEntry matchId (l ++ [s]) mgr.sessions },
         Except.ok s.sessionId)

/-- Shallow embedding of `MatchManager.remove_session`
(src/src/match_manager.py lines 319-333): filter the session list by
connection identity when the id has a session entry, then refresh the
viewer count from the updated session list when the match exists.  When
the match exists without a session entry the original raises `KeyError`
before mutating anything, leaving the state unchanged. -/
def removeSession (mgr : Manager) (matchId : String) (ws : Nat) : Manager :=
  match lookupE matchId mgr.sessions with
  | none => mgr
  | some l =>
    let sess := setEntry matchId (l.filter (fun s => s.ws ≠ ws)) mgr.sessions
    match lookupE matchId mgr.matchTbl with
    | none => { mgr with sessions := sess }
    | some md =>
      { matchTbl := setEntry matchId
          { md with viewers := (l.filter (fun s => s.ws ≠ ws)).length } mgr.matchTbl,
        sessions := sess }

/-- A session-registry operation. -/
inductive SOp where
  | add (mid : String) (s : Session)
  | remove (mid : String) (ws : Nat)
deriving Repr, DecidableEq

/-- Apply one session-registry operation (discarding `add_session`'s
return value). -/
def applyOp (mgr : Manager) : SOp → Manager
  | SOp.add mid s => (addSession mgr mid s).1
  | SOp.remove mid ws => removeSession mgr mid ws

/-- Apply a sequence of session-registry operations. -/
def applyOps (mgr : Manager) (ops : List SOp) : Manager :=
  ops.foldl applyOp mgr

/-- Well-formedness of the manager tables: every match has a session
list and its `viewers` field equals that list's length. -/
def WF (mgr : Manager) : Prop :=
  ∀ mid md, lookupE mid mgr.matchTbl = some md →
    ∃ l, lookupE mid mgr.sessions = some l ∧ md.viewers = l.length

/-- A one-match manager for the C8/C9 witnesses. -/
def mgrW : Manager :=
  { matchTbl := [("m1", initMatch 0)], sessions := [("m1", [])] }

/-- A concrete session for the C8/C9 witnesses. -/
def sessW : Session := { sessionId := "sid1", ws := 7 }

/-- Python `html.escape` (with its default `quote=True`) on one
character.  The library implements escaping as five sequential
`str.replace` calls with `&` replaced first; since no replacement string
contains a character replaced later, that is extensionally this
per-character map. -/
def escapeChar (c : Char) : String :=
  if c = '&' then "&amp;"
  else if c = '<' then "&lt;"
  else if c = '>' then "&gt;"
  else if c = Char.ofNat 34 then "&quot;"
  else if c = Char.ofNat 39 then "&#x27;"
  else String.singleton c

/-- Python `html.escape` over a whole string. -/
def htmlEscape (s : String) : String :=
  String.join (s.data.map escapeChar)

/-- Python string slicing `s[:n]`: the first `n` code points. -/
def strTake (s : String) (n : Nat) : String :=
  String.mk (s.data.take n)

/-- The creation-form fields feeding the sanitization logic; a missing
key makes `form.get` return the documented default. -/
structure CreateForm where
  aName : Option String
  bName : Option String
  mLoc : Option String
deriving Repr, DecidableEq

/-- The sanitized text fields of the static match record. -/
structure CreatedNames where
  aName : String
  bName : String
  desc : String
deriving Repr, DecidableEq

/-- Shallow embedding of the text sanitization in
`MatchManager.create_match` (src/src/match_manager.py lines 255-269):
team names default to "Team A"/"Team B", are truncated to 25 code
points and then HTML-escaped; the location defaults to "" and is
truncated to 35 code points and then HTML-escaped.  The color fields
are omitted: they are stored verbatim or feed the floating-point
contrast computation, and no claim concerns them. -/
def createMatchNames (f : CreateForm) : CreatedNames :=
  { aName := htmlEscape (strTake (f.aName.getD "Team A") 25),
    bName := htmlEscape (strTake (f.bName.getD "Team B") 25),
    desc := htmlEscape (strTake (f.mLoc.getD "") 35) }

/-! ## Archive codec (C4): JSON layer

`encode_match_state` serializes the archive record with
`json.dumps(..., separators=(",", ":"))` (compact, `ensure_ascii=True`)
and `decode_state` parses it back with `json.loads`.  The definitions
below embed the serializer and a parser for the exact grammar the
serializer emits. -/

/-- The double-quote character. -/
def quoteC : Char := Char.ofNat 34

/-- The backslash character. -/
def backslashC : Char := Char.ofNat 92

/-- The left-brace character. -/
def lbraceC : Char := Char.ofNat 123

/-- The right-brace character. -/
def rbraceC : Char := Char.ofNat 125

/-- The base64 padding character. -/
def padC : Char := Char.ofNat 61

/-- Lowercase hexadecimal digit, as Python's `"\\u%04x"` formatting
emits. -/
def hexDigitChar (d : Nat) : Char :=
  if d < 10 then Char.ofNat (48 + d) else Char.ofNat (87 + d)

/-- Hexadecimal digit value (Python's parser accepts both cases). -/
def hexVal? (c : Char) : Option Nat :=
  if 48 ≤ c.toNat ∧ c.toNat ≤ 57 then some (c.toNat - 48)
  else if 97 ≤ c.toNat ∧ c.toNat ≤ 102 then some (c.toNat - 87)
  else if 65 ≤ c.toNat ∧ c.toNat ≤ 70 then some (c.toNat - 55)
  else none

/-- Four lowercase hex digits for a value below 0x10000. -/
def hex4 (n : Nat) : List Char :=
  [hexDigitChar (n / 4096 % 16), hexDigitChar (n / 256 % 16),
   hexDigitChar (n / 16 % 16), hexDigitChar (n % 16)]

/-- Read four hexadecimal digits. -/
def parseHex4 : List Char → Option (Nat × List Char)
  | c1 :: c2 :: c3 :: c4 :: rest =>
    match hexVal? c1, hexVal? c2, hexVal? c3, hexVal? c4 with
    | some d1, some d2, some d3, some d4 =>
        some (d1 * 4096 + d2 * 256 + d3 * 16 + d4, rest)
    | _, _, _, _ => none
  | _ => none

/-- `json.dumps` (default `ensure_ascii=True`) escaping of one character:
quote and backslash get two-character escapes, the five control
characters with short forms get those, every other character outside
0x20–0x7e gets `\\uXXXX` (a surrogate pair for code points above
0xFFFF), and the rest are emitted verbatim. -/
def escJChar (c : Char) : List Char :=
  if c = quoteC then [backslashC, quoteC]
  else if c = backslashC then [backslashC, backslashC]
  else if c.toNat = 8 then [backslashC, Char.ofNat 98]
  else if c.toNat = 9 then [backslashC, Char.ofNat 116]
  else if c.toNat = 10 then [backslashC, Char.ofNat 110]
  else if c.toNat = 12 then [backslashC, Char.ofNat 102]
  else if c.toNat = 13 then [backslashC, Char.ofNat 114]
  else if c.toNat < 32 then backslashC :: Char.ofNat 117 :: hex4 c.toNat
  else if c.toNat < 127 then [c]
  else if c.toNat < 65536 then backslashC :: Char.ofNat 117 :: hex4 c.toNat
  else
    backslashC :: Char.ofNat 117 :: hex4 (55296 + (c.toNat - 65536) / 1024) ++
      backslashC :: Char.ofNat 117 :: hex4 (56320 + (c.toNat - 65536) % 1024)

/-- Escape a whole character sequence. -/
def escChars (l : List Char) : List Char :=
  (l.map escJChar).flatten

/-- The serialized form of a JSON string value. -/
def dumpJStr (s : String) : List Char :=
  quoteC :: escChars s.data ++ [quoteC]

/-- Decode one escape sequence (the part after the backslash).  On a
high surrogate a full `\\uXXXX\\uYYYY` pair is recombined; the JSON the
encoder emits never contains lone surrogates, and this parser rejects
them (Python would build a lone-surrogate string there). -/
def parseEsc : List Char → Option (Char × List Char)
  | [] => none
  | e :: rest =>
    if e = quoteC then some (quoteC, rest)
    else if e = backslashC then some (backslashC, rest)
    else if e = Char.ofNat 47 then some (Char.ofNat 47, rest)
    else if e = Char.ofNat 98 then some (Char.ofNat 8, rest)
    else if e = Char.ofNat 116 then some (Char.ofNat 9, rest)
    else if e = Char.ofNat 110 then some (Char.ofNat 10, rest)
    else if e = Char.ofNat 102 then some (Char.ofNat 12, rest)
    else if e = Char.ofNat 114 then some (Char.ofNat 13, rest)
    else if e = Char.ofNat 117 then
      match parseHex4 rest with
      | none => none
      | some (n, rest2) =>
        if 55296 ≤ n ∧ n < 56320 then
          match rest2 with
          | b1 :: u1 :: rest3 =>
            if b1 = backslashC ∧ u1 = Char.ofNat 117 then
              match parseHex4 rest3 with
              | some (n2, rest4) =>
                if 56320 ≤ n2 ∧ n2 < 57344 then
                  some (Char.ofNat (65536 + (n - 55296) * 1024 + (n2 - 56320)), rest4)
                else none
              | none => none
            else none
          | _ => none
        else some (Char.ofNat n, rest2)
    else none

/-- String-body parsing with explicit fuel (each recursive call consumes
at least one produced character, so `input.length` is always enough
fuel); stops at the closing quote. -/
def parseJStrAux : Nat → List Char → Option (List Char × List Char)
  | 0, _ => none
  | _ + 1, [] => none
  | fuel + 1, c :: cs =>
    if c = quoteC then some ([], cs)
    else if c = backslashC then
      match parseEsc cs with
      | none => none
      | some (ch, rest) =>
        match parseJStrAux fuel rest with
        | none => none
        | some (content, rest2) => some (ch :: content, rest2)
    else
      match parseJStrAux fuel cs with
      | none => none
      | some (content, rest2) => some (c :: content, rest2)

/-- Parse a JSON string value. -/
def parseJStr (input : List Char) : Option (String × List Char) :=
  match input with
  | [] => none
  | c :: cs =>
    if c = quoteC then
      match parseJStrAux cs.length cs with
      | some (content, rest) => some (String.mk content, rest)
      | none => none
    else none

/-- Decimal digit value. -/
def digitVal? (c : Char) : Option Nat :=
  if 48 ≤ c.toNat ∧ c.toNat ≤ 57 then some (c.toNat - 48) else none

/-- The decimal digits of a natural number, most significant first. -/
def natChars (n : Nat) : List Char :=
  if n = 0 then [Char.ofNat 48]
  else ((Nat.digits 10 n).reverse.map (fun d => Char.ofNat (48 + d)))

/-- Consume a maximal run of decimal digits. -/
def munchDigits : List Char → List Nat × List Char
  | [] => ([], [])
  | c :: cs =>
    match digitVal? c with
    | some d => ((munchDigits cs).1.cons d, (munchDigits cs).2)
    | none => ([], c :: cs)

/-- Parse a (non-negative) JSON number as the serializer emits it. -/
def parseNat (input : List Char) : Option (Nat × List Char) :=
  if (munchDigits input).1 = [] then none
  else some (Nat.ofDigits 10 (munchDigits input).1.reverse, (munchDigits input).2)

/-- The first character of `rest` (if any) is not a decimal digit, so
maximal-munch number parsing stops exactly at the printed digits. -/
def noDigitHead : List Char → Prop
  | [] => True
  | c :: _ => digitVal? c = none

/-- Every character of the list is ASCII. -/
def AsciiL (l : List Char) : Prop :=
  ∀ c ∈ l, c.toNat < 128

/-- Interpose commas between serialized elements. -/
def joinComma : List (List Char) → List Char
  | [] => []
  | [x] => x
  | x :: xs => x ++ Char.ofNat 44 :: joinComma xs

/-- The serialized form of a JSON array of numbers. -/
def dumpNatList (l : List Nat) : List Char :=
  Char.ofNat 91 :: joinComma (l.map natChars) ++ [Char.ofNat 93]

/-- The serialized form of the history: an array of arrays of numbers. -/
def dumpHist (h : List (List Nat)) : List Char :=
  Char.ofNat 91 :: joinComma (h.map dumpNatList) ++ [Char.ofNat 93]

/-- Parse the non-empty tail of a number array (fuel bounds the element
count). -/
def parseNatListAux : Nat → List Char → Option (List Nat × List Char)
  | 0, _ => none
  | fuel + 1, input =>
    match parseNat input with
    | none => none
    | some (n, rest) =>
      match rest with
      | [] => none
      | c :: cs =>
        if c = Char.ofNat 44 then
          match parseNatListAux fuel cs with
          | some (ns, rest2) => some (n :: ns, rest2)
          | none => none
        else if c = Char.ofNat 93 then some ([n], cs)
        else none

/-- Parse a JSON array of numbers. -/
def parseNatList (input : List Char) : Option (List Nat × List Char) :=
  match input with
  | [] => none
  | c :: cs =>
    if c = Char.ofNat 91 then
      match cs with
      | [] => none
      | d :: ds => if d = Char.ofNat 93 then some ([], ds) else parseNatListAux cs.length cs
    else none

/-- Parse the non-empty tail of the history array. -/
def parseHistAux : Nat → List Char → Option (List (List Nat) × List Char)
  | 0, _ => none
  | fuel + 1, input =>
    match parseNatList input with
    | none => none
    | some (n, rest) =>
      match rest with
      | [] => none
      | c :: cs =>
        if c = Char.ofNat 44 then
          match parseHistAux fuel cs with
          | some (ns, rest2) => some (n :: ns, rest2)
          | none => none
        else if c = Char.ofNat 93 then some ([n], cs)
        else none

/-- Parse the history: a JSON array of arrays of numbers. -/
def parseHist (input : List Char) : Option (List (List Nat) × List Char) :=
  match input with
  | [] => none
  | c :: cs =>
    if c = Char.ofNat 91 then
      match cs with
      | [] => none
      | d :: ds => if d = Char.ofNat 93 then some ([], ds) else parseHistAux cs.length cs
    else none

/-- Expect a literal character sequence. -/
def parseLit : List Char → List Char → Option (List Char)
  | [], input => some input
  | _ :: _, [] => none
  | c :: cs, i :: is => if i = c then parseLit cs is else none

/-- One team's static display data (`match_static["a"]` / `["b"]`). -/
structure TeamStatic where
  name : String
  colorBg : String
  colorFg : String
deriving Repr, DecidableEq

/-- The static match record `create_match` builds (the admin token and
start date exist in the record but are not read by
`encode_match_state`). -/
structure MatchStatic where
  a : TeamStatic
  b : TeamStatic
  desc : String
  adminToken : String
  startDate : String
deriving Repr, DecidableEq

/-- One team's entry in the archive record: name, background color,
foreground color under the keys `n`/`b`/`f`. -/
structure ArchiveTeam where
  n : String
  b : String
  f : String
deriving Repr, DecidableEq

/-- The archive record `encode_match_state` serializes: schema version
`v`, encode timestamp `d`, description `l`, the two teams and the full
history. -/
structure ArchiveRecord where
  v : Nat
  d : Nat
  l : String
  a : ArchiveTeam
  b : ArchiveTeam
  h : List (List Nat)
deriving Repr, DecidableEq

/-- The record `encode_match_state` (src/src/match_manager.py lines
214-229) builds from the static and dynamic match data; `ts` is
`int(datetime.now().timestamp())`. -/
def buildRecord (st : MatchStatic) (m : MatchDyn) (ts : Nat) : ArchiveRecord :=
  { v := 2, d := ts, l := st.desc,
    a := { n := st.a.name, b := st.a.colorBg, f := st.a.colorFg },
    b := { n := st.b.name, b := st.b.colorBg, f := st.b.colorFg },
    h := m.history }

/-- The serialized `"k":` key prefix (all keys are single characters). -/
def keyLit (k : Char) : List Char :=
  [quoteC, k, quoteC, Char.ofNat 58]

/-- The serialized team object. -/
def dumpTeam (t : ArchiveTeam) : List Char :=
  lbraceC :: (keyLit (Char.ofNat 110) ++ dumpJStr t.n ++
    Char.ofNat 44 :: (keyLit (Char.ofNat 98) ++ dumpJStr t.b ++
      Char.ofNat 44 :: (keyLit (Char.ofNat 102) ++ dumpJStr t.f ++ [rbraceC])))

/-- `json.dumps(match_state, separators=(",", ":"))`: the compact
serialization of the archive record, keys in insertion order. -/
def dumpRecord (r : ArchiveRecord) : List Char :=
  lbraceC :: (keyLit (Char.ofNat 118) ++ natChars r.v ++
    Char.ofNat 44 :: (keyLit (Char.ofNat 100) ++ natChars r.d ++
      Char.ofNat 44 :: (keyLit (Char.ofNat 108) ++ dumpJStr r.l ++
        Char.ofNat 44 :: (keyLit (Char.ofNat 97) ++ dumpTeam r.a ++
          Char.ofNat 44 :: (keyLit (Char.ofNat 98) ++ dumpTeam r.b ++
            Char.ofNat 44 :: (keyLit (Char.ofNat 104) ++ dumpHist r.h ++ [rbraceC]))))))

/-- Parse a team object. -/
def parseTeam (input : List Char) : Option (ArchiveTeam × List Char) :=
  match parseLit (lbraceC :: keyLit (Char.ofNat 110)) input with
  | none => none
  | some i1 =>
    match parseJStr i1 with
    | none => none
    | some (n, i2) =>
      match parseLit (Char.ofNat 44 :: keyLit (Char.ofNat 98)) i2 with
      | none => none
      | some i3 =>
        match parseJStr i3 with
        | none => none
        | some (b, i4) =>
          match parseLit (Char.ofNat 44 :: keyLit (Char.ofNat 102)) i4 with
          | none => none
          | some i5 =>
            match parseJStr i5 with
            | none => none
            | some (f, i6) =>
              match parseLit [rbraceC] i6 with
              | none => none
              | some i7 => some ({ n := n, b := b, f := f }, i7)

/-- `json.loads` specialized to the exact grammar `dumpRecord` emits
(the serializer writes no whitespace and a fixed key order, so the
loader is modelled by this schema-directed parser). -/
def parseRecord (input : List Char) : Option (ArchiveRecord × List Char) :=
  match parseLit (lbraceC :: keyLit (Char.ofNat 118)) input with
  | none => none
  | some i1 =>
    match parseNat i1 with
    | none => none
    | some (v, i2) =>
      match parseLit (Char.ofNat 44 :: keyLit (Char.ofNat 100)) i2 with
      | none => none
      | some i3 =>
        match parseNat i3 with
        | none => none
        | some (d, i4) =>
          match parseLit (Char.ofNat 44 :: keyLit (Char.ofNat 108)) i4 with
          | none => none
          | some i5 =>
            match parseJStr i5 with
            | none => none
            | some (l, i6) =>
              match parseLit (Char.ofNat 44 :: keyLit (Char.ofNat 97)) i6 with
              | none => none
              | some i7 =>
                match parseTeam i7 with
                | none => none
                | some (a, i8) =>
                  match parseLit (Char.ofNat 44 :: keyLit (Char.ofNat 98)) i8 with
                  | none => none
                  | some i9 =>
                    match parseTeam i9 with
                    | none => none
                    | some (b, i10) =>
                      match parseLit (Char.ofNat 44 :: keyLit (Char.ofNat 104)) i10 with
                      | none => none
                      | some i11 =>
                        match parseHist i11 with
                        | none => none
                        | some (h, i12) =>
                          match parseLit [rbraceC] i12 with
                          | none => none
                          | some i13 =>
                            some ({ v := v, d := d, l := l, a := a, b := b, h := h }, i13)

/-- `str.encode()` (UTF-8) on the serializer output: the JSON encoder
runs with `ensure_ascii=True`, so every emitted character is ASCII and
the UTF-8 bytes are exactly the code points (proved in
`dumpRecord_ascii`); multi-byte sequences never occur. -/
def strBytes (l : List Char) : List Nat :=
  l.map Char.toNat

/-- `bytes.decode()` restricted to the ASCII case (the only one the
decompressed archive bytes can be in): fails on a byte outside ASCII. -/
def asciiDecode : List Nat → Option (List Char)
  | [] => some []
  | b :: bs =>
    if b < 128 then
      match asciiDecode bs with
      | some cs => some (Char.ofNat b :: cs)
      | none => none
    else none

/-- The urlsafe base64 alphabet (RFC 4648 with `-` and `_`), as
`base64.urlsafe_b64encode` uses. -/
def b64char (n : Nat) : Char :=
  if n < 26 then Char.ofNat (65 + n)
  else if n < 52 then Char.ofNat (71 + n)
  else if n < 62 then Char.ofNat (n - 4)
  else if n = 62 then Char.ofNat 45
  else Char.ofNat 95

/-- Inverse of the urlsafe base64 alphabet. -/
def b64val? (c : Char) : Option Nat :=
  if 65 ≤ c.toNat ∧ c.toNat ≤ 90 then some (c.toNat - 65)
  else if 97 ≤ c.toNat ∧ c.toNat ≤ 122 then some (c.toNat - 71)
  else if 48 ≤ c.toNat ∧ c.toNat ≤ 57 then some (c.toNat + 4)
  else if c.toNat = 45 then some 62
  else if c.toNat = 95 then some 63
  else none

/-- `base64.urlsafe_b64encode(...)` followed by `.rstrip("=")`: the
padding characters are appended only at the very end of the encoding
and `=` is not in the alphabet, so stripping them leaves exactly the
data characters this function produces. -/
def b64encodeRaw : List Nat → List Char
  | b1 :: b2 :: b3 :: rest =>
    b64char (b1 / 4) :: b64char (b1 % 4 * 16 + b2 / 16) ::
      b64char (b2 % 16 * 4 + b3 / 64) :: b64char (b3 % 64) :: b64encodeRaw rest
  | [b1, b2] => [b64char (b1 / 4), b64char (b1 % 4 * 16 + b2 / 16), b64char (b2 % 16 * 4)]
  | [b1] => [b64char (b1 / 4), b64char (b1 % 4 * 16)]
  | [] => []

/-- `decode_state`'s padding restoration
(`encoded_state + '==='[:(4 - len(encoded_state) % 4) % 4]`,
src/state-decode.py line 9). -/
def padToken (cs : List Char) : List Char :=
  cs ++ List.replicate ((4 - cs.length % 4) % 4) padC

/-- `base64.urlsafe_b64decode` on a correctly padded input: groups of
four alphabet characters yield three bytes, a final group with one or
two `=` yields two bytes or one. -/
def b64decode : List Char → Option (List Nat)
  | [] => some []
  | c1 :: c2 :: c3 :: c4 :: rest =>
    match b64val? c1, b64val? c2 with
    | some v1, some v2 =>
      if c3 = padC ∧ c4 = padC ∧ rest = [] then
        some [v1 * 4 + v2 / 16]
      else
        match b64val? c3 with
        | none => none
        | some v3 =>
          if c4 = padC ∧ rest = [] then
            some [v1 * 4 + v2 / 16, v2 % 16 * 16 + v3 / 4]
          else
            match b64val? c4, b64decode rest with
            | some v4, some bs =>
                some ((v1 * 4 + v2 / 16) :: (v2 % 16 * 16 + v3 / 4) :: (v3 % 4 * 64 + v4) :: bs)
            | _, _ => none
    | _, _ => none
  | _ => none

/-- zlib, modelled abstractly: DEFLATE is library code external to this
repository, and the only properties the archive codec relies on are
that decompression inverts compression losslessly and that compression
produces bytes.  Any concrete lossless byte codec (zlib included)
satisfies these fields; `idCompressor` is the trivial one. -/
structure Compressor where
  compress : List Nat → List Nat
  decompress : List Nat → Option (List Nat)
  bounded : ∀ bs, (∀ x ∈ bs, x < 256) → ∀ x ∈ compress bs, x < 256
  rt : ∀ bs, decompress (compress bs) = some bs

/-- The identity instance of the abstract compressor. -/
def idCompressor : Compressor :=
  { compress := id, decompress := some,
    bounded := fun _ h => h, rt := fun _ => rfl }

/-- Shallow embedding of `encode_match_state`
(src/src/match_manager.py lines 208-238): build the archive record,
serialize it compactly, compress, base64url-encode and strip the
padding. -/
def encodeMatchState (z : Compressor) (st : MatchStatic) (m : MatchDyn) (ts : Nat) :
    String :=
  String.mk (b64encodeRaw (z.compress (strBytes (dumpRecord (buildRecord st m ts)))))

/-- Shallow embedding of `decode_state` (src/state-decode.py lines
7-13): restore the base64 padding to a multiple of four, base64-decode,
decompress, decode the bytes and parse the JSON (which must consume the
whole string). -/
def decodeState (z : Compressor) (token : String) : Option ArchiveRecord :=
  match b64decode (padToken token.data) with
  | none => none
  | some bytes =>
    match z.decompress bytes with
    | none => none
    | some jsonBytes =>
      match asciiDecode jsonBytes with
      | none => none
      | some chars =>
        match parseRecord chars with
        | some (r, []) => some r
        | _ => none

/-- A concrete static record for the C4 witness. -/
def c4st : MatchStatic :=
  { a := { name := "Reds", colorBg := "#FF0000", colorFg := "#FFFFFF" },
    b := { name := "Blues", colorBg := "#0000FF", colorFg := "#000000" },
    desc := "Gym 1", adminToken := "tok123", startDate := "20251012" }

/-- A finished five-set match for the C4 witness. -/
def c4m5 : MatchDyn :=
  { history := [[0, 0], [1], [0], [1, 1], [0]], done := true,
    lastUpdated := 0, viewers := 0 }

/-- The history invariant: while live there is always a current set and
every sealed (non-final) set is non-empty; once done, every set of the
archived history is non-empty. -/
def Inv (m : MatchDyn) : Prop :=
  (m.done = false → m.history ≠ [] ∧ ∀ s ∈ m.history.dropLast, s ≠ []) ∧
  (m.done = true → ∀ s ∈ m.history, s ≠ [])

end VBScore

namespace VBScore

/-! ## Branch equations for `processAdminAction` -/

theorem paa_no_action (now : ℚ) (m : MatchDyn) (u : Update) (h : u.action = none) :
    processAdminAction now m u = (m, Output.silent) := by
  simp [processAdminAction, h]

theorem paa_empty_action (now : ℚ) (m : MatchDyn) (u : Update) (h : u.action = some "") :
    processAdminAction now m u = (m, Output.silent) := by
  simp [processAdminAction, h]

theorem paa_point_invalid (now : ℚ) (m : MatchDyn) (u : Update)
    (h : u.action = some "point") (ht : ¬(u.team = some 0 ∨ u.team = some 1)) :
    processAdminAction now m u = (m, Output.silent) := by
  simp [processAdminAction, h, ht]

theorem paa_point_valid (now : ℚ) (m : MatchDyn) (u : Update)
    (h : u.action = some "point") (ht : u.team = some 0 ∨ u.team = some 1)
    (L : List (List Nat)) (b : List Nat) (hh : m.history = L ++ [b]) :
    processAdminAction now m u =
      (if b.count (paTeam u) < 99 then
        finishStep { m with history := L ++ [b ++ [paTeam u]], lastUpdated := now }
      else finishStep m) := by
  simp [processAdminAction, h, ht, hh, List.getLast?_concat, List.dropLast_concat]

theorem paa_undo (now : ℚ) (m : MatchDyn) (u : Update)
    (h : u.action = some "undo")
    (L : List (List Nat)) (b : List Nat) (hh : m.history = L ++ [b]) :
    processAdminAction now m u =
      (if b = [] then finishStep m
       else finishStep { m with history := L ++ [b.dropLast], lastUpdated := now }) := by
  simp [processAdminAction, h, hh, List.getLast?_concat, List.dropLast_concat]

theorem paa_new_set_live (now : ℚ) (m : MatchDyn) (u : Update)
    (h : u.action = some "new_set") (hlen : ¬5 ≤ m.history.length) :
    processAdminAction now m u =
      finishStep { m with lastUpdated := now, done := false,
                          history := m.history ++ [[]] } := by
  simp [processAdminAction, h, hlen]

theorem paa_new_set_done (now : ℚ) (m : MatchDyn) (u : Update)
    (h : u.action = some "new_set") (hlen : 5 ≤ m.history.length)
    (L : List (List Nat)) (b : List Nat) (hh : m.history = L ++ [b]) :
    processAdminAction now m u =
      ({ m with lastUpdated := now, done := true,
                history := if b = [] then L else L ++ [b] }, Output.redirectBroadcast) := by
  have h4 : 4 ≤ L.length := by
    rw [hh, List.length_append, List.length_singleton] at hlen
    omega
  simp [processAdminAction, h, hh, List.getLast?_concat, List.dropLast_concat, h4]

theorem paa_end_match (now : ℚ) (m : MatchDyn) (u : Update)
    (h : u.action = some "end_match")
    (L : List (List Nat)) (b : List Nat) (hh : m.history = L ++ [b]) :
    processAdminAction now m u =
      ({ m with lastUpdated := now, done := true,
                history := if b = [] then L else L ++ [b] }, Output.redirectBroadcast) := by
  simp [processAdminAction, h, hh, List.getLast?_concat, List.dropLast_concat]

theorem paa_unknown (now : ℚ) (m : MatchDyn) (u : Update) (a : String)
    (h : u.action = some a) (h1 : a ≠ "") (h2 : a ≠ "point") (h3 : a ≠ "undo")
    (h4 : a ≠ "new_set") (h5 : a ≠ "end_match") :
    processAdminAction now m u = finishStep m := by
  simp [processAdminAction, h, h1, h2, h3, h4, h5]

/-! ## The history invariant is preserved by good action sequences -/

theorem finishStep_fst (m : MatchDyn) : (finishStep m).1 = m := rfl

theorem inv_of_live {m : MatchDyn} (hdone : m.done = false)
    (hne : m.history ≠ []) (hseal : ∀ s ∈ m.history.dropLast, s ≠ []) : Inv m := by
  constructor
  · intro _
    exact ⟨hne, hseal⟩
  · intro h
    rw [hdone] at h
    cases h

theorem inv_of_done {m : MatchDyn} (hdone : m.done = true)
    (hall : ∀ s ∈ m.history, s ≠ []) : Inv m := by
  constructor
  · intro h
    rw [hdone] at h
    cases h
  · intro _
    exact hall

theorem all_ne_concat {L : List (List Nat)} {b : List Nat}
    (hL : ∀ s ∈ L, s ≠ []) (hb : b ≠ []) : ∀ s ∈ L ++ [b], s ≠ [] := by
  intro s hs
  rcases List.mem_append.mp hs with h | h
  · exact hL s h
  · rw [List.mem_singleton] at h; subst h; exact hb

theorem inv_step (t : ℚ) (u : Update) (m : MatchDyn)
    (hdone : m.done = false) (hne : m.history ≠ [])
    (hseal : ∀ s ∈ m.history.dropLast, s ≠ [])
    (hns : u.action = some "new_set" → m.history.getLast? ≠ some []) :
    Inv (step m (t, u)) := by
  rcases List.eq_nil_or_concat' m.history with h0 | ⟨L, b, hLb⟩
  · exact absurd h0 hne
  have hsealL : ∀ s ∈ L, s ≠ [] := fun s hs =>
    hseal s (by rw [hLb, List.dropLast_concat]; exact hs)
  cases hact : u.action with
  | none =>
      rw [step, paa_no_action t m u hact]
      exact inv_of_live hdone hne hseal
  | some a =>
      by_cases ha0 : a = ""
      · subst ha0
        rw [step, paa_empty_action t m u hact]
        exact inv_of_live hdone hne hseal
      by_cases hap : a = "point"
      · subst hap
        by_cases ht : u.team = some 0 ∨ u.team = some 1
        · rw [step, paa_point_valid t m u hact ht L b hLb]
          by_cases hc : b.count (paTeam u) < 99
          · rw [if_pos hc, finishStep_fst]
            refine inv_of_live hdone (by simp) ?_
            intro s hs
            simp only [List.dropLast_concat] at hs
            exact hsealL s hs
          · rw [if_neg hc, finishStep_fst]
            exact inv_of_live hdone hne hseal
        · rw [step, paa_point_invalid t m u hact ht]
          exact inv_of_live hdone hne hseal
      by_cases hau : a = "undo"
      · subst hau
        rw [step, paa_undo t m u hact L b hLb]
        by_cases hb : b = []
        · rw [if_pos hb, finishStep_fst]
          exact inv_of_live hdone hne hseal
        · rw [if_neg hb, finishStep_fst]
          refine inv_of_live hdone (by simp) ?_
          intro s hs
          simp only [List.dropLast_concat] at hs
          exact hsealL s hs
      by_cases hans : a = "new_set"
      · subst hans
        have hb : b ≠ [] := by
          intro hb0
          exact hns hact (by rw [hLb, List.getLast?_concat, hb0])
        by_cases hlen : 5 ≤ m.history.length
        · rw [step, paa_new_set_done t m u hact hlen L b hLb]
          refine inv_of_done rfl ?_
          simp only [if_neg hb]
          exact all_ne_concat hsealL hb
        · rw [step, paa_new_set_live t m u hact hlen, finishStep_fst]
          refine inv_of_live rfl (by simp) ?_
          intro s hs
          simp only [List.dropLast_concat, hLb] at hs
          exact all_ne_concat hsealL hb s hs
      by_cases hae : a = "end_match"
      · subst hae
        rw [step, paa_end_match t m u hact L b hLb]
        by_cases hb : b = []
        · refine inv_of_done rfl ?_
          simp only [if_pos hb]
          exact hsealL
        · refine inv_of_done rfl ?_
          simp only [if_neg hb]
          exact all_ne_concat hsealL hb
      · rw [step, paa_unknown t m u a hact ha0 hap hau hans hae, finishStep_fst]
        exact inv_of_live hdone hne hseal

theorem inv_run : ∀ (us : List (ℚ × Update)) (m : MatchDyn),
    Inv m → goodSeq m us → Inv (run m us) := by
  intro us
  induction us with
  | nil => intro m hm _; exact hm
  | cons tu rest ih =>
      intro m hm hg
      obtain ⟨t, u⟩ := tu
      obtain ⟨hdone, hns, hrest⟩ := hg
      obtain ⟨hne, hseal⟩ := hm.1 hdone
      exact ih (step m (t, u)) (inv_step t u m hdone hne hseal hns) hrest

theorem inv_init (t0 : ℚ) : Inv (initMatch t0) := by
  refine inv_of_live rfl (by simp [initMatch]) ?_
  intro s hs
  simp [initMatch] at hs

/-- C1: the claimed invariant fails on the code.  From a fresh match,
`new_set` (sealing the empty first set) followed by `end_match` ends the
match with the archived history `[[]]`: done is true yet the history
ends in an empty set.  The finalization only drops the single trailing
empty set, not earlier empty sealed sets. -/
theorem c1_empty_trailing_set_counterexample :
    (run (initMatch 0) [(0, newSetU), (0, endMatchU)]).done = true ∧
    (run (initMatch 0) [(0, newSetU), (0, endMatchU)]).history.getLast? = some [] := by
  constructor <;> rfl

/-- C1 (amended): for every admin-action sequence delivered while the
match is live in which each `new_set` is invoked with a non-empty
current set, once `done` is true every set of the archived history is
non-empty — in particular there is no empty trailing set.  (The
unamended claim fails: finalization only drops the single trailing
empty set, so a `new_set` issued on an empty current set seals an empty
set that survives into the archive, see the counterexample.) -/
theorem c1_done_no_empty_trailing_set_amended (t0 : ℚ) (us : List (ℚ × Update))
    (hg : goodSeq (initMatch t0) us)
    (hd : (run (initMatch t0) us).done = true) :
    (∀ s ∈ (run (initMatch t0) us).history, s ≠ []) ∧
      (run (initMatch t0) us).history.getLast? ≠ some [] := by
  have hall := (inv_run us (initMatch t0) (inv_init t0) hg).2 hd
  exact ⟨hall, fun hcon => hall [] (List.mem_of_getLast?_eq_some hcon) rfl⟩

/-! ## Running point blocks (for C2) -/

theorem run_cons (m : MatchDyn) (tu : ℚ × Update) (rest : List (ℚ × Update)) :
    run m (tu :: rest) = run (step m tu) rest := rfl

theorem run_singleton (m : MatchDyn) (tu : ℚ × Update) :
    run m [tu] = step m tu := rfl

theorem step_pair (m : MatchDyn) (t : ℚ) (u : Update) :
    step m (t, u) = (processAdminAction t m u).1 := rfl

theorem run_append (m : MatchDyn) (l1 l2 : List (ℚ × Update)) :
    run m (l1 ++ l2) = run (run m l1) l2 := by
  simp [run, List.foldl_append]

theorem paTeam_pointU (t : Int) : paTeam (pointU t) = teamNat t := by
  simp [paTeam, pointU, teamNat]

theorem run_points (t : Int) (ht : t = 0 ∨ t = 1) :
    ∀ (k : Nat) (m : MatchDyn) (L : List (List Nat)) (b : List Nat),
    m.done = false → m.history = L ++ [b] →
    b.count (teamNat t) + k ≤ 99 →
    (run m (List.replicate k ((0 : ℚ), pointU t))).done = false ∧
    (run m (List.replicate k ((0 : ℚ), pointU t))).history
      = L ++ [b ++ List.replicate k (teamNat t)] := by
  intro k
  induction k with
  | zero =>
      intro m L b hdone hh _
      constructor
      · simpa [run] using hdone
      · simpa [run] using hh
  | succ k ih =>
      intro m L b hdone hh hcnt
      have htm : (pointU t).team = some 0 ∨ (pointU t).team = some 1 := by
        rcases ht with h | h <;> simp [pointU, h]
      have hcl : b.count (teamNat t) < 99 := by omega
      rw [List.replicate_succ, run_cons, step_pair,
        paa_point_valid 0 m (pointU t) rfl htm L b hh, paTeam_pointU,
        if_pos hcl, finishStep_fst]
      have hcnt' : (b ++ [teamNat t]).count (teamNat t) + k ≤ 99 := by
        simp only [List.count_append, List.count_singleton_self]
        omega
      obtain ⟨hd', hh'⟩ :=
        ih { m with history := L ++ [b ++ [teamNat t]], lastUpdated := 0 }
          L (b ++ [teamNat t]) hdone rfl hcnt'
      refine ⟨hd', ?_⟩
      rw [hh', List.replicate_succ]
      simp [List.append_assoc]

theorem blockSeq_no_end : ∀ ps : List (Nat × Int), ∀ tu ∈ blockSeq ps,
    (tu : ℚ × Update).2.action ≠ some "end_match" := by
  intro ps
  induction ps with
  | nil =>
      intro tu h
      simp [blockSeq] at h
  | cons p rest ih =>
      obtain ⟨k, t⟩ := p
      intro tu h
      rw [blockSeq] at h
      rcases List.mem_append.mp h with h1 | h2
      · rcases List.mem_append.mp h1 with h3 | h4
        · rw [List.eq_of_mem_replicate h3]
          simp [pointU]
        · rw [List.mem_singleton] at h4
          rw [h4]
          simp [newSetU]
      · exact ih tu h2

theorem blockSeq_newset_count : ∀ ps : List (Nat × Int),
    (blockSeq ps).countP (fun tu => decide (tu.2.action = some "new_set")) = ps.length := by
  intro ps
  induction ps with
  | nil => simp [blockSeq]
  | cons p rest ih =>
      obtain ⟨k, t⟩ := p
      rw [blockSeq]
      simp [List.countP_append, List.countP_replicate, pointU, newSetU, ih,
        List.countP_cons]

theorem run_blocks : ∀ (ps : List (Nat × Int)) (m : MatchDyn) (L : List (List Nat)),
    (∀ p ∈ ps, 1 ≤ p.1 ∧ p.1 ≤ 99 ∧ (p.2 = 0 ∨ p.2 = 1)) →
    m.done = false → m.history = L ++ [[]] →
    L.length + ps.length = 5 → ps ≠ [] →
    (run m (blockSeq ps)).done = true ∧
    (run m (blockSeq ps)).history
      = L ++ ps.map (fun p => List.replicate p.1 (teamNat p.2)) := by
  intro ps
  induction ps with
  | nil =>
      intro m L _ _ _ _ hne
      exact absurd rfl hne
  | cons p rest ih =>
      obtain ⟨k, t⟩ := p
      intro m L hps hdone hh hlen _
      obtain ⟨hk1, hk99, ht⟩ := hps (k, t) (List.mem_cons_self _ _)
      have hrest : ∀ q ∈ rest, 1 ≤ q.1 ∧ q.1 ≤ 99 ∧ (q.2 = 0 ∨ q.2 = 1) :=
        fun q hq => hps q (List.mem_cons_of_mem _ hq)
      rw [blockSeq, run_append, run_append, run_singleton, step_pair]
      obtain ⟨hd1, hh1⟩ := run_points t ht k m L [] hdone hh (by simpa using hk99)
      have hh1' : (run m (List.replicate k ((0 : ℚ), pointU t))).history
          = L ++ [List.replicate k (teamNat t)] := by simpa using hh1
      have hbne : List.replicate k (teamNat t) ≠ [] := by
        intro hcon
        have := congrArg List.length hcon
        simp at this
        omega
      cases rest with
      | nil =>
          have hlen5 : 5 ≤ (run m (List.replicate k ((0 : ℚ), pointU t))).history.length := by
            rw [hh1']
            simp at hlen ⊢
            omega
          rw [paa_new_set_done 0 _ newSetU rfl hlen5 L (List.replicate k (teamNat t)) hh1']
          refine ⟨rfl, ?_⟩
          have hk0 : ¬k = 0 := by omega
          simp [blockSeq, run, hk0]
      | cons q rest' =>
          have hlive : ¬5 ≤ (run m (List.replicate k ((0 : ℚ), pointU t))).history.length := by
            rw [hh1']
            simp at hlen ⊢
            omega
          rw [paa_new_set_live 0 _ newSetU rfl hlive, finishStep_fst]
          have hh2 : ({ run m (List.replicate k ((0 : ℚ), pointU t)) with
              lastUpdated := 0, done := false,
              history := (run m (List.replicate k ((0 : ℚ), pointU t))).history ++ [[]]
              } : MatchDyn).history
              = (L ++ [List.replicate k (teamNat t)]) ++ [[]] := by
            simp [hh1']
          obtain ⟨hd3, hh3⟩ := ih _ (L ++ [List.replicate k (teamNat t)]) hrest rfl hh2
            (by simp at hlen ⊢; omega) (by simp)
          refine ⟨hd3, ?_⟩
          rw [hh3]
          simp [List.append_assoc]

/-- C2: from a fresh match, playing five blocks of `k` points (1 ≤ k ≤ 99,
team 0 or 1 each block) followed by `new_set`, the fifth `new_set` itself
sets `done` with no `end_match` anywhere in the sequence, and the final
history is exactly the five sealed non-empty sets. -/
theorem c2_five_new_sets_auto_done (t0 : ℚ) (ps : List (Nat × Int))
    (hps : ∀ p ∈ ps, 1 ≤ p.1 ∧ p.1 ≤ 99 ∧ (p.2 = 0 ∨ p.2 = 1))
    (hlen : ps.length = 5) :
    (run (initMatch t0) (blockSeq ps)).done = true ∧
    (run (initMatch t0) (blockSeq ps)).history
      = ps.map (fun p => List.replicate p.1 (teamNat p.2)) ∧
    (run (initMatch t0) (blockSeq ps)).history.length = 5 ∧
    (∀ s ∈ (run (initMatch t0) (blockSeq ps)).history, s ≠ []) ∧
    (blockSeq ps).countP (fun tu => decide (tu.2.action = some "new_set")) = 5 ∧
    (∀ tu ∈ blockSeq ps, (tu : ℚ × Update).2.action ≠ some "end_match") := by
  have hne : ps ≠ [] := by
    intro h
    rw [h] at hlen
    simp at hlen
  obtain ⟨hdone, hh⟩ := run_blocks ps (initMatch t0) [] hps rfl rfl
    (by simpa using hlen) hne
  have hh' : (run (initMatch t0) (blockSeq ps)).history
      = ps.map (fun p => List.replicate p.1 (teamNat p.2)) := by simpa using hh
  refine ⟨hdone, hh', ?_, ?_, ?_, blockSeq_no_end ps⟩
  · rw [hh']
    simp [hlen]
  · intro s hs
    rw [hh'] at hs
    obtain ⟨p, hp, rfl⟩ := List.mem_map.mp hs
    obtain ⟨hk1, -, -⟩ := hps p hp
    simp only [ne_eq, List.replicate_eq_nil_iff]
    omega
  · rw [blockSeq_newset_count ps, hlen]

/-- Witness for C2: one point per set, five sets. -/
theorem c2_five_new_sets_auto_done_witness :
    (∀ p ∈ c2ps, 1 ≤ p.1 ∧ p.1 ≤ 99 ∧ (p.2 = 0 ∨ p.2 = 1)) ∧
    c2ps.length = 5 ∧
    ((run (initMatch 0) (blockSeq c2ps)).done = true ∧
     (run (initMatch 0) (blockSeq c2ps)).history
       = c2ps.map (fun p => List.replicate p.1 (teamNat p.2)) ∧
     (run (initMatch 0) (blockSeq c2ps)).history.length = 5 ∧
     (∀ s ∈ (run (initMatch 0) (blockSeq c2ps)).history, s ≠ []) ∧
     (blockSeq c2ps).countP (fun tu => decide (tu.2.action = some "new_set")) = 5 ∧
     (∀ tu ∈ blockSeq c2ps, (tu : ℚ × Update).2.action ≠ some "end_match")) :=
  ⟨by decide, by decide, c2_five_new_sets_auto_done 0 c2ps (by decide) (by decide)⟩

/-- Witness for the amended C1 at a concrete good trace. -/
theorem c1_done_no_empty_trailing_set_amended_witness :
    goodSeq (initMatch 0) [((0 : ℚ), pointU 0), (0, endMatchU)] ∧
    (run (initMatch 0) [((0 : ℚ), pointU 0), (0, endMatchU)]).done = true ∧
    ((∀ s ∈ (run (initMatch 0) [((0 : ℚ), pointU 0), (0, endMatchU)]).history, s ≠ []) ∧
      (run (initMatch 0) [((0 : ℚ), pointU 0), (0, endMatchU)]).history.getLast? ≠ some []) :=
  ⟨by decide, by decide,
    c1_done_no_empty_trailing_set_amended 0 [((0 : ℚ), pointU 0), (0, endMatchU)]
      (by decide) (by decide)⟩

/-! ## C3: point/undo on the current set of a live match -/

theorem netEvents_run : ∀ (acts : List PU) (m : MatchDyn) (L : List (List Nat)) (b : List Nat),
    m.done = false → m.history = L ++ [b] →
    (∀ a ∈ acts, ∀ t, a = PU.point t → (t = 0 ∨ t = 1)) →
    (∀ v, b.count v ≤ 99) →
    (run m (acts.map PU.toUpdate)).done = false ∧
    (run m (acts.map PU.toUpdate)).history = L ++ [netEvents acts b] ∧
    (∀ v, (netEvents acts b).count v ≤ 99) := by
  intro acts
  induction acts with
  | nil =>
      intro m L b hdone hh _ hcnt
      exact ⟨hdone, by simpa [run, netEvents] using hh, by simpa [netEvents] using hcnt⟩
  | cons a rest ih =>
      intro m L b hdone hh hvalid hcnt
      have hvrest : ∀ a ∈ rest, ∀ t, a = PU.point t → (t = 0 ∨ t = 1) :=
        fun a ha t hat => hvalid a (List.mem_cons_of_mem _ ha) t hat
      cases a with
      | point t =>
          have ht : t = 0 ∨ t = 1 :=
            hvalid (PU.point t) (List.mem_cons_self _ _) t rfl
          have htm : (pointU t).team = some 0 ∨ (pointU t).team = some 1 := by
            rcases ht with h | h <;> simp [pointU, h]
          rw [List.map_cons, run_cons, PU.toUpdate, step_pair,
            paa_point_valid 0 m (pointU t) rfl htm L b hh, paTeam_pointU, netEvents]
          by_cases hc : b.count (teamNat t) < 99
          · rw [if_pos hc, if_pos hc, finishStep_fst]
            refine ih _ L (b ++ [teamNat t]) hdone rfl hvrest ?_
            intro v
            by_cases hv : v = teamNat t
            · subst hv
              simp only [List.count_append, List.count_singleton_self]
              omega
            · have : (List.count v [teamNat t]) = 0 := by
                simp [List.count_singleton]
                intro hcon
                exact absurd hcon.symm hv
              simp only [List.count_append, this]
              have := hcnt v
              omega
          · rw [if_neg hc, if_neg hc, finishStep_fst]
            exact ih m L b hdone hh hvrest hcnt
      | undo =>
          rw [List.map_cons, run_cons, PU.toUpdate, step_pair,
            paa_undo 0 m undoU rfl L b hh, netEvents]
          by_cases hb : b = []
          · rw [if_pos hb, finishStep_fst]
            subst hb
            exact ih m L ([] : List Nat).dropLast hdone hh hvrest hcnt
          · rw [if_neg hb, finishStep_fst]
            refine ih _ L b.dropLast hdone rfl hvrest ?_
            intro v
            exact le_trans ((List.dropLast_sublist b).count_le v) (hcnt v)

/-- C3: for every sequence of valid `point`/`undo` actions on a live
match whose current-set counts are within the 0–99 bound, running the
code's `process_admin_action` leaves the match live and turns the
current set into exactly the specification's net-event model (each
team's tally is the number of its point events not cancelled by a later
undo; undo pops the most recent remaining event and is a no-op on an
empty set), with every per-team tally staying at most 99.  Moreover a
`point` for a team already at 99 leaves the match state entirely
unchanged. -/
theorem c3_point_undo_net_tally (acts : List PU) (m : MatchDyn)
    (L : List (List Nat)) (b : List Nat)
    (hdone : m.done = false) (hh : m.history = L ++ [b])
    (hvalid : ∀ a ∈ acts, ∀ t, a = PU.point t → (t = 0 ∨ t = 1))
    (hcnt : ∀ v, b.count v ≤ 99) :
    ((run m (acts.map PU.toUpdate)).done = false ∧
     (run m (acts.map PU.toUpdate)).history = L ++ [netEvents acts b] ∧
     (∀ v, (netEvents acts b).count v ≤ 99)) ∧
    (∀ (m2 : MatchDyn) (L2 : List (List Nat)) (b2 : List Nat) (t : Int),
      (t = 0 ∨ t = 1) → m2.history = L2 ++ [b2] →
      b2.count (teamNat t) = 99 →
      run m2 [((0 : ℚ), pointU t)] = m2) := by
  refine ⟨netEvents_run acts m L b hdone hh hvalid hcnt, ?_⟩
  intro m2 L2 b2 t ht hh2 h99
  have htm : (pointU t).team = some 0 ∨ (pointU t).team = some 1 := by
    rcases ht with h | h <;> simp [pointU, h]
  rw [run_singleton, step_pair, paa_point_valid 0 m2 (pointU t) rfl htm L2 b2 hh2,
    paTeam_pointU, if_neg (by omega), finishStep_fst]

/-- Witness for C3 at a concrete action list and live match. -/
theorem c3_point_undo_net_tally_witness :
    ((initMatch 0).done = false ∧
     (initMatch 0).history = [] ++ [([] : List Nat)] ∧
     (∀ a ∈ [PU.point 0, PU.point 1, PU.undo], ∀ t, a = PU.point t → (t = 0 ∨ t = 1)) ∧
     (∀ v, ([] : List Nat).count v ≤ 99)) ∧
    ((run (initMatch 0) ([PU.point 0, PU.point 1, PU.undo].map PU.toUpdate)).done = false ∧
     (run (initMatch 0) ([PU.point 0, PU.point 1, PU.undo].map PU.toUpdate)).history
       = [] ++ [netEvents [PU.point 0, PU.point 1, PU.undo] []] ∧
     (∀ v, (netEvents [PU.point 0, PU.point 1, PU.undo] []).count v ≤ 99)) :=
  ⟨⟨rfl, rfl, by intro a ha t hat; subst hat; simp at ha; exact ha, fun v => by simp⟩,
    (c3_point_undo_net_tally [PU.point 0, PU.point 1, PU.undo] (initMatch 0) [] []
      rfl rfl (by intro a ha t hat; subst hat; simp at ha; exact ha) (fun v => by simp)).1⟩

/-! ## C5: unrecognized actions -/

/-- C5: the claim's "performs no broadcast" is false on the code.  An
unrecognized action string falls through the `if/elif` chain to
`if not match["done"]: await self.broadcast_match_state(match_id)`
(src/src/match_manager.py line 399), so on a live match a full-state
broadcast is performed (the state itself is unchanged). -/
theorem c5_unrecognized_broadcasts_counterexample :
    (processAdminAction 0 (initMatch 0)
        { action := some "bogus", team := none }).2 = Output.stateBroadcast ∧
    (processAdminAction 0 (initMatch 0)
        { action := some "bogus", team := none }).1 = initMatch 0 := by
  constructor <;> rfl

/-- C5 (amended): for every present but unrecognized action string, the
match state (history, done, last_updated, viewers) is left entirely
unchanged and the action is only logged — but a (redundant) full-state
broadcast is still performed whenever the match is not done; no
broadcast happens only when the match is already done. -/
theorem c5_unrecognized_action_amended (now : ℚ) (m : MatchDyn) (u : Update) (a : String)
    (h : u.action = some a) (h0 : a ≠ "") (h2 : a ≠ "point") (h3 : a ≠ "undo")
    (h4 : a ≠ "new_set") (h5 : a ≠ "end_match") :
    processAdminAction now m u
      = (m, if m.done then Output.silent else Output.stateBroadcast) := by
  rw [paa_unknown now m u a h h0 h2 h3 h4 h5]
  rfl

/-- Witness for the amended C5 at a concrete unrecognized action. -/
theorem c5_unrecognized_action_amended_witness :
    (({ action := some "reset", team := none } : Update).action = some "reset" ∧
      ("reset" : String) ≠ "" ∧ ("reset" : String) ≠ "point" ∧
      ("reset" : String) ≠ "undo" ∧ ("reset" : String) ≠ "new_set" ∧
      ("reset" : String) ≠ "end_match") ∧
    processAdminAction 0 (initMatch 0) { action := some "reset", team := none }
      = (initMatch 0,
         if (initMatch 0).done then Output.silent else Output.stateBroadcast) :=
  ⟨⟨rfl, by decide, by decide, by decide, by decide, by decide⟩,
    c5_unrecognized_action_amended 0 (initMatch 0) _ "reset" rfl
      (by decide) (by decide) (by decide) (by decide) (by decide)⟩

/-! ## C6: broadcast_match_state error isolation -/

/-- C6: the claim is false on the code.  `broadcast_match_state` has no
per-send exception handling, so with a session list whose first session's
send fails and whose second session is healthy, the healthy session
receives nothing: the failure is not skipped, it aborts the remaining
sends. -/
theorem c6_broadcast_skips_failures_counterexample :
    (sendAll [{ sid := "s1", ok := false }, { sid := "s2", ok := true }]).1 = [] ∧
    (sendAll [{ sid := "s1", ok := false }, { sid := "s2", ok := true }]).1
      ≠ List.filter (fun s => s.ok)
          [{ sid := "s1", ok := false }, { sid := "s2", ok := true }] := by
  constructor
  · rfl
  · intro h
    cases h

/-- C6 (amended): `broadcast_match_state` sends the snapshot in
session-list order, but only to the sessions strictly before the first
failing one: a send failure propagates out of the loop and aborts the
sends to every remaining session (an exception escapes exactly when some
session's send fails).  The state mutation that triggered the broadcast
is unaffected: the broadcast neither reads back nor modifies the match
record, so the committed state survives the escaping exception. -/
theorem c6_broadcast_prefix_amended (l : List Sess) :
    sendAll l = (l.takeWhile (fun s => s.ok), l.any (fun s => !s.ok)) := by
  induction l with
  | nil => rfl
  | cons s rest ih =>
      by_cases h : s.ok = true
      · simp [sendAll, h, ih, List.takeWhile_cons]
      · have h' : s.ok = false := by
          revert h
          cases s.ok <;> simp
        simp [sendAll, h', List.takeWhile_cons]

/-! ## C7: the sliding-window rate limiter -/

theorem rl_step_allow (limit : Nat) (window : ℚ) (tracker : List ℚ) (now : ℚ)
    (hkeep : ∀ a ∈ tracker, now - a < window)
    (hlen : tracker.length < limit) :
    rateLimitStep limit window tracker now = (tracker ++ [now], RLResult.allowed) := by
  have hp : tracker.filter (fun t => decide (now - t < window)) = tracker :=
    List.filter_eq_self.mpr (fun a ha => decide_eq_true (hkeep a ha))
  simp only [rateLimitStep, hp]
  rw [if_neg (by omega)]

theorem rl_step_deny (limit : Nat) (window : ℚ) (tracker : List ℚ) (now : ℚ) (o : ℚ)
    (hkeep : ∀ a ∈ tracker, now - a < window)
    (hmin : tracker.min? = some o)
    (hlen : limit ≤ tracker.length) :
    rateLimitStep limit window tracker now
      = (tracker, RLResult.denied ⌊window - (now - o)⌋) := by
  have hp : tracker.filter (fun t => decide (now - t < window)) = tracker :=
    List.filter_eq_self.mpr (fun a ha => decide_eq_true (hkeep a ha))
  simp only [rateLimitStep, hp, hmin]
  rw [if_pos hlen]

theorem rl_run_all_allowed (limit : Nat) (window : ℚ) :
    ∀ (ts acc : List ℚ),
    (∀ a ∈ acc ++ ts, ∀ b ∈ acc ++ ts, b - a < window) →
    acc.length + ts.length ≤ limit →
    rateLimitRun limit window acc ts
      = (acc ++ ts, List.replicate ts.length RLResult.allowed) := by
  intro ts
  induction ts with
  | nil =>
      intro acc _ _
      simp [rateLimitRun]
  | cons now rest ih =>
      intro acc hsp hlen
      have hkeep : ∀ a ∈ acc, now - a < window := fun a ha =>
        hsp a (List.mem_append.mpr (Or.inl ha)) now (by simp)
      have hstep := rl_step_allow limit window acc now hkeep (by simp at hlen; omega)
      have hsp' : ∀ a ∈ (acc ++ [now]) ++ rest, ∀ b ∈ (acc ++ [now]) ++ rest,
          b - a < window := by
        intro a ha b hb
        rw [List.append_assoc, List.singleton_append] at ha hb
        exact hsp a ha b hb
      have hlen' : (acc ++ [now]).length + rest.length ≤ limit := by
        simp at hlen ⊢
        omega
      rw [rateLimitRun, hstep]
      rw [ih (acc ++ [now]) hsp' hlen']
      simp [List.append_assoc, List.replicate_succ]

/-- C7: with limit 20 and a 3600-second window, for any fixed caller key:
20 requests arriving within one second of each other are all allowed and
all recorded; a 21st request within the window of all of them is denied
with a Retry-After of `⌊3600 - (now - oldest)⌋` computed from the oldest
retained timestamp, a value between 0 and 3600, and the denial records
no new timestamp; and a later request more than 3600 seconds after every
recorded timestamp is allowed again. -/
theorem c7_rate_limiter_window (ts : List ℚ) (t21 late : ℚ)
    (hlen : ts.length = 20)
    (hspread : ∀ a ∈ ts, ∀ b ∈ ts, b - a < 1)
    (h21in : ∀ a ∈ ts, t21 - a < 3600)
    (h21ge : ∀ a ∈ ts, a ≤ t21)
    (hlate : ∀ a ∈ ts, 3600 < late - a) :
    rateLimitRun 20 3600 [] ts = (ts, List.replicate 20 RLResult.allowed) ∧
    (∃ o, ts.min? = some o ∧
      rateLimitStep 20 3600 ts t21 = (ts, RLResult.denied ⌊(3600 : ℚ) - (t21 - o)⌋) ∧
      0 ≤ ⌊(3600 : ℚ) - (t21 - o)⌋ ∧ ⌊(3600 : ℚ) - (t21 - o)⌋ ≤ 3600) ∧
    rateLimitStep 20 3600 ts late = ([late], RLResult.allowed) := by
  have htsne : ts ≠ [] := by
    intro h
    rw [h] at hlen
    simp at hlen
  refine ⟨?_, ?_, ?_⟩
  · have := rl_run_all_allowed 20 3600 ts []
      (by
        intro a ha b hb
        simp only [List.nil_append] at ha hb
        calc b - a < 1 := hspread a ha b hb
          _ < 3600 := by norm_num)
      (by simp [hlen])
    simpa [hlen] using this
  · obtain ⟨x, hx⟩ := List.exists_mem_of_ne_nil ts htsne
    have hsome := List.isSome_min?_of_mem hx
    obtain ⟨o, hmin⟩ := Option.isSome_iff_exists.mp hsome
    have homem : o ∈ ts := List.min?_mem (fun a b => min_choice a b) hmin
    have hole : ∀ b ∈ ts, o ≤ b :=
      fun b hb => (List.le_min?_iff (fun a b c => le_min_iff) hmin).mp (le_refl o) b hb
    refine ⟨o, hmin, rl_step_deny 20 3600 ts t21 o h21in hmin (by omega), ?_, ?_⟩
    · have h1 : t21 - o < 3600 := h21in o homem
      have : (0 : ℚ) ≤ 3600 - (t21 - o) := by linarith
      exact Int.floor_nonneg.mpr this
    · have h2 : o ≤ t21 := h21ge o homem
      have : (3600 : ℚ) - (t21 - o) ≤ 3600 := by linarith
      calc ⌊(3600 : ℚ) - (t21 - o)⌋ ≤ ⌊(3600 : ℚ)⌋ := Int.floor_le_floor this
        _ = 3600 := by norm_num
  · have hp : ts.filter (fun t => decide (late - t < 3600)) = [] := by
      rw [List.filter_eq_nil_iff]
      intro a ha
      have := hlate a ha
      simp only [decide_eq_true_eq]
      intro hcon
      linarith
    simp only [rateLimitStep, hp]
    rw [if_neg (by simp)]
    rfl

/-! ## C8/C9: session registry -/

theorem lookupE_setEntry_self {β : Type} (k : String) (v w : β) :
    ∀ l : List (String × β), lookupE k l = some w →
    lookupE k (setEntry k v l) = some v := by
  intro l
  induction l with
  | nil =>
      intro h
      cases h
  | cons p rest ih =>
      obtain ⟨a, b⟩ := p
      intro h
      by_cases ha : a = k
      · simp [setEntry, lookupE, ha]
      · simp only [setEntry, lookupE, if_neg ha] at h ⊢
        exact ih h

theorem lookupE_setEntry_ne {β : Type} (k k' : String) (v : β) (hne : k' ≠ k) :
    ∀ l : List (String × β), lookupE k' (setEntry k v l) = lookupE k' l := by
  intro l
  induction l with
  | nil => rfl
  | cons p rest ih =>
      obtain ⟨a, b⟩ := p
      by_cases ha : a = k
      · subst ha
        have hk' : ¬a = k' := fun h => hne h.symm
        simp [setEntry, lookupE, hk']
      · simp only [setEntry, if_neg ha, lookupE]
        by_cases ha2 : a = k'
        · simp [ha2]
        · simp [ha2, ih]

theorem setEntry_setEntry {β : Type} (k : String) (v v' : β) :
    ∀ l : List (String × β), setEntry k v' (setEntry k v l) = setEntry k v' l := by
  intro l
  induction l with
  | nil => rfl
  | cons p rest ih =>
      obtain ⟨a, b⟩ := p
      by_cases ha : a = k
      · simp [setEntry, ha]
      · simp [setEntry, ha, ih]

theorem addSession_notfound (mgr : Manager) (mid : String) (s : Session)
    (hm : lookupE mid mgr.matchTbl = none) :
    addSession mgr mid s = (mgr, Except.error AddErr.matchNotFound) := by
  simp [addSession, hm]

theorem addSession_ended (mgr : Manager) (mid : String) (s : Session) (md : MatchDyn)
    (hm : lookupE mid mgr.matchTbl = some md) (hd : md.done = true) :
    addSession mgr mid s = (mgr, Except.error AddErr.matchEnded) := by
  simp [addSession, hm, hd]

theorem addSession_keyerr (mgr : Manager) (mid : String) (s : Session) (md : MatchDyn)
    (hm : lookupE mid mgr.matchTbl = some md) (hd : md.done = false)
    (hs : lookupE mid mgr.sessions = none) :
    addSession mgr mid s = (mgr, Except.error AddErr.keyError) := by
  simp [addSession, hm, hd, hs]

theorem addSession_ok (mgr : Manager) (mid : String) (s : Session) (md : MatchDyn)
    (l : List Session)
    (hm : lookupE mid mgr.matchTbl = some md) (hd : md.done = false)
    (hs : lookupE mid mgr.sessions = some l) :
    addSession mgr mid s =
      ({ matchTbl := setEntry mid { md with viewers := (l ++ [s]).length } mgr.matchTbl,
         sessions := setEntry mid (l ++ [s]) mgr.sessions },
       Except.ok s.sessionId) := by
  simp [addSession, hm, hd, hs]

theorem removeSession_nosess (mgr : Manager) (mid : String) (ws : Nat)
    (hs : lookupE mid mgr.sessions = none) :
    removeSession mgr mid ws = mgr := by
  simp [removeSession, hs]

theorem removeSession_nomatch (mgr : Manager) (mid : String) (ws : Nat)
    (l : List Session)
    (hs : lookupE mid mgr.sessions = some l)
    (hm : lookupE mid mgr.matchTbl = none) :
    removeSession mgr mid ws =
      { mgr with sessions := setEntry mid (l.filter (fun s => s.ws ≠ ws)) mgr.sessions } := by
  simp [removeSession, hs, hm]

theorem removeSession_found (mgr : Manager) (mid : String) (ws : Nat)
    (l : List Session) (md : MatchDyn)
    (hs : lookupE mid mgr.sessions = some l)
    (hm : lookupE mid mgr.matchTbl = some md) :
    removeSession mgr mid ws =
      { matchTbl := setEntry mid
          { md with viewers := (l.filter (fun s => s.ws ≠ ws)).length } mgr.matchTbl,
        sessions := setEntry mid (l.filter (fun s => s.ws ≠ ws)) mgr.sessions } := by
  simp [removeSession, hs, hm]

theorem wf_addSession (mgr : Manager) (mid : String) (s : Session)
    (hwf : WF mgr) : WF (addSession mgr mid s).1 := by
  cases hm : lookupE mid mgr.matchTbl with
  | none =>
      rw [addSession_notfound mgr mid s hm]
      exact hwf
  | some md =>
      cases hd : md.done with
      | true =>
          rw [addSession_ended mgr mid s md hm hd]
          exact hwf
      | false =>
          cases hs : lookupE mid mgr.sessions with
          | none =>
              rw [addSession_keyerr mgr mid s md hm hd hs]
              exact hwf
          | some l =>
              rw [addSession_ok mgr mid s md l hm hd hs]
              intro mid2 md2 hm2
              by_cases hmid : mid2 = mid
              · subst hmid
                rw [lookupE_setEntry_self mid2 _ md mgr.matchTbl hm] at hm2
                cases hm2
                exact ⟨l ++ [s], lookupE_setEntry_self mid2 _ l mgr.sessions hs, rfl⟩
              · rw [lookupE_setEntry_ne mid mid2 _ hmid mgr.matchTbl] at hm2
                obtain ⟨l2, hs2, hv⟩ := hwf mid2 md2 hm2
                exact ⟨l2, by rw [lookupE_setEntry_ne mid mid2 _ hmid mgr.sessions]; exact hs2,
                  hv⟩

theorem wf_removeSession (mgr : Manager) (mid : String) (ws : Nat)
    (hwf : WF mgr) : WF (removeSession mgr mid ws) := by
  cases hs : lookupE mid mgr.sessions with
  | none =>
      rw [removeSession_nosess mgr mid ws hs]
      exact hwf
  | some l =>
      cases hm : lookupE mid mgr.matchTbl with
      | none =>
          rw [removeSession_nomatch mgr mid ws l hs hm]
          intro mid2 md2 hm2
          have hne : mid2 ≠ mid := by
            intro h
            rw [h, hm] at hm2
            cases hm2
          obtain ⟨l2, hs2, hv⟩ := hwf mid2 md2 hm2
          exact ⟨l2, by rw [lookupE_setEntry_ne mid mid2 _ hne mgr.sessions]; exact hs2, hv⟩
      | some md =>
          rw [removeSession_found mgr mid ws l md hs hm]
          intro mid2 md2 hm2
          by_cases hmid : mid2 = mid
          · subst hmid
            rw [lookupE_setEntry_self mid2 _ md mgr.matchTbl hm] at hm2
            cases hm2
            exact ⟨l.filter (fun s => s.ws ≠ ws),
              lookupE_setEntry_self mid2 _ l mgr.sessions hs, rfl⟩
          · rw [lookupE_setEntry_ne mid mid2 _ hmid mgr.matchTbl] at hm2
            obtain ⟨l2, hs2, hv⟩ := hwf mid2 md2 hm2
            exact ⟨l2, by rw [lookupE_setEntry_ne mid mid2 _ hmid mgr.sessions]; exact hs2, hv⟩

theorem wf_applyOps : ∀ (ops : List SOp) (mgr : Manager),
    WF mgr → WF (applyOps mgr ops) := by
  intro ops
  induction ops with
  | nil => intro mgr hwf; exact hwf
  | cons op rest ih =>
      intro mgr hwf
      cases op with
      | add mid s => exact ih _ (wf_addSession mgr mid s hwf)
      | remove mid ws => exact ih _ (wf_removeSession mgr mid ws hwf)

theorem removeSession_idem (mgr : Manager) (mid : String) (ws : Nat) :
    removeSession (removeSession mgr mid ws) mid ws = removeSession mgr mid ws := by
  have hfidem : ∀ l : List Session,
      (l.filter (fun s => s.ws ≠ ws)).filter (fun s => s.ws ≠ ws)
        = l.filter (fun s => s.ws ≠ ws) :=
    fun l => List.filter_eq_self.mpr (fun a ha => (List.mem_filter.mp ha).2)
  cases hs : lookupE mid mgr.sessions with
  | none =>
      rw [removeSession_nosess mgr mid ws hs, removeSession_nosess mgr mid ws hs]
  | some l =>
      cases hm : lookupE mid mgr.matchTbl with
      | none =>
          rw [removeSession_nomatch mgr mid ws l hs hm]
          rw [removeSession_nomatch
            { mgr with sessions := setEntry mid (l.filter (fun s => s.ws ≠ ws)) mgr.sessions }
            mid ws (l.filter (fun s => s.ws ≠ ws))
            (lookupE_setEntry_self mid (l.filter (fun s => s.ws ≠ ws)) l mgr.sessions hs) hm]
          rw [hfidem l, setEntry_setEntry]
      | some md =>
          rw [removeSession_found mgr mid ws l md hs hm]
          rw [removeSession_found
            { matchTbl := setEntry mid
                { md with viewers := (l.filter (fun s => s.ws ≠ ws)).length } mgr.matchTbl,
              sessions := setEntry mid (l.filter (fun s => s.ws ≠ ws)) mgr.sessions }
            mid ws (l.filter (fun s => s.ws ≠ ws))
            { md with viewers := (l.filter (fun s => s.ws ≠ ws)).length }
            (lookupE_setEntry_self mid (l.filter (fun s => s.ws ≠ ws)) l mgr.sessions hs)
            (lookupE_setEntry_self mid
              { md with viewers := (l.filter (fun s => s.ws ≠ ws)).length } md mgr.matchTbl hm)]
          rw [hfidem l, setEntry_setEntry, setEntry_setEntry]

/-- C8: `add_session` raises `MatchNotFoundError` exactly when the match
id is absent from the match table, raises `MatchEndedError` exactly when
the match exists with `done` true; in every failure case the tables
(session list and viewer count included) are left unchanged; on success
it appends the new session to the match's session list, refreshes the
viewer count to the new length, and returns the new session's id. -/
theorem c8_add_session_errors (mgr : Manager) (mid : String) (s : Session) :
    ((addSession mgr mid s).2 = Except.error AddErr.matchNotFound ↔
      lookupE mid mgr.matchTbl = none) ∧
    ((addSession mgr mid s).2 = Except.error AddErr.matchEnded ↔
      ∃ md, lookupE mid mgr.matchTbl = some md ∧ md.done = true) ∧
    (∀ e, (addSession mgr mid s).2 = Except.error e → (addSession mgr mid s).1 = mgr) ∧
    (∀ md l, lookupE mid mgr.matchTbl = some md → md.done = false →
      lookupE mid mgr.sessions = some l →
      addSession mgr mid s =
        ({ matchTbl := setEntry mid { md with viewers := (l ++ [s]).length } mgr.matchTbl,
           sessions := setEntry mid (l ++ [s]) mgr.sessions },
         Except.ok s.sessionId)) := by
  cases hm : lookupE mid mgr.matchTbl with
  | none =>
      rw [addSession_notfound mgr mid s hm]
      refine ⟨by simp, ?_, fun e _ => rfl, ?_⟩
      · constructor
        · intro h
          simp at h
        · rintro ⟨md, hmd, -⟩
          cases hmd
      · intro md l hmd _ _
        cases hmd
  | some md =>
      cases hd : md.done with
      | true =>
          rw [addSession_ended mgr mid s md hm hd]
          refine ⟨by simp, ?_, fun e _ => rfl, ?_⟩
          · simp only [Except.error.injEq]
            exact ⟨fun _ => ⟨md, rfl, hd⟩, fun _ => trivial⟩
          · intro md2 l hmd2 hd2 _
            cases hmd2
            rw [hd2] at hd
            cases hd
      | false =>
          cases hs : lookupE mid mgr.sessions with
          | none =>
              rw [addSession_keyerr mgr mid s md hm hd hs]
              refine ⟨by simp, ?_, fun e _ => rfl, ?_⟩
              · simp only [Except.error.injEq]
                constructor
                · intro h
                  cases h
                · rintro ⟨md2, hmd2, hd2⟩
                  cases hmd2
                  rw [hd2] at hd
                  cases hd
              · intro md2 l hmd2 _ hs2
                cases hs2
          | some l =>
              rw [addSession_ok mgr mid s md l hm hd hs]
              refine ⟨by simp, ?_, ?_, ?_⟩
              · simp only
                constructor
                · intro h
                  simp at h
                · rintro ⟨md2, hmd2, hd2⟩
                  cases hmd2
                  rw [hd2] at hd
                  cases hd
              · intro e he
                simp at he
              · intro md2 l2 hmd2 _ hs2
                cases hmd2
                cases hs2
                rfl

/-- Witness for C8 at a concrete one-match manager: the success case,
applied through the theorem. -/
theorem c8_add_session_errors_witness :
    (lookupE "m1" mgrW.matchTbl = some (initMatch 0) ∧
     (initMatch 0).done = false ∧
     lookupE "m1" mgrW.sessions = some [] ∧
     addSession mgrW "m1" sessW =
       ({ matchTbl := setEntry "m1"
            { initMatch 0 with viewers := ([] ++ [sessW] : List Session).length } mgrW.matchTbl,
          sessions := setEntry "m1" ([] ++ [sessW]) mgrW.sessions },
        Except.ok sessW.sessionId)) ∧
    (addSession mgrW "zz" sessW).2 = Except.error AddErr.matchNotFound :=
  ⟨⟨rfl, rfl, rfl,
    (c8_add_session_errors mgrW "m1" sessW).2.2.2 (initMatch 0) [] rfl rfl rfl⟩,
    (c8_add_session_errors mgrW "zz" sessW).1.mpr rfl⟩

/-- C9: from any well-formed table state (viewer count equal to
session-list length for every match, as holds at creation), every finite
sequence of `add_session`/`remove_session` operations preserves that the
`viewers` field equals the session-list length for every match; and
`remove_session` is idempotent — removing the same connection again
changes neither the session list nor the viewer count. -/
theorem c9_viewer_count_and_idempotence (ops : List SOp) (mgr : Manager)
    (hwf : WF mgr) :
    WF (applyOps mgr ops) ∧
    (∀ (mgr2 : Manager) (mid : String) (ws : Nat),
      removeSession (removeSession mgr2 mid ws) mid ws = removeSession mgr2 mid ws) :=
  ⟨wf_applyOps ops mgr hwf, fun mgr2 mid ws => removeSession_idem mgr2 mid ws⟩

/-- Witness for C9 at the concrete one-match manager with an add then a
remove. -/
theorem c9_viewer_count_and_idempotence_witness :
    WF mgrW ∧
    (WF (applyOps mgrW [SOp.add "m1" sessW, SOp.remove "m1" 7]) ∧
     (∀ (mgr2 : Manager) (mid : String) (ws : Nat),
       removeSession (removeSession mgr2 mid ws) mid ws = removeSession mgr2 mid ws)) := by
  have hwf : WF mgrW := by
    intro mid md h
    simp only [mgrW, lookupE] at h
    by_cases hm : "m1" = mid
    · rw [if_pos hm] at h
      cases h
      exact ⟨[], by simp [mgrW, lookupE, hm], rfl⟩
    · rw [if_neg hm] at h
      cases h
  exact ⟨hwf,
    c9_viewer_count_and_idempotence [SOp.add "m1" sessW, SOp.remove "m1" 7] mgrW hwf⟩

/-- Witness for C7: twenty requests at time 0, a denied 21st at time 0,
and an allowed request at time 4000. -/
theorem c7_rate_limiter_window_witness :
    (c7ts.length = 20 ∧
     (∀ a ∈ c7ts, ∀ b ∈ c7ts, b - a < 1) ∧
     (∀ a ∈ c7ts, (0 : ℚ) - a < 3600) ∧
     (∀ a ∈ c7ts, a ≤ (0 : ℚ)) ∧
     (∀ a ∈ c7ts, (3600 : ℚ) < 4000 - a)) ∧
    (rateLimitRun 20 3600 [] c7ts = (c7ts, List.replicate 20 RLResult.allowed) ∧
     (∃ o, c7ts.min? = some o ∧
       rateLimitStep 20 3600 c7ts 0 = (c7ts, RLResult.denied ⌊(3600 : ℚ) - (0 - o)⌋) ∧
       0 ≤ ⌊(3600 : ℚ) - (0 - o)⌋ ∧ ⌊(3600 : ℚ) - (0 - o)⌋ ≤ 3600) ∧
     rateLimitStep 20 3600 c7ts 4000 = ([(4000 : ℚ)], RLResult.allowed)) :=
  by
  have hm : ∀ a ∈ c7ts, a = (0 : ℚ) := by
    intro a ha
    simpa [c7ts, List.mem_replicate] using ha
  have h1 : c7ts.length = 20 := by simp [c7ts]
  have h2 : ∀ a ∈ c7ts, ∀ b ∈ c7ts, b - a < 1 := by
    intro a ha b hb
    rw [hm a ha, hm b hb]
    norm_num
  have h3 : ∀ a ∈ c7ts, (0 : ℚ) - a < 3600 := by
    intro a ha
    rw [hm a ha]
    norm_num
  have h4 : ∀ a ∈ c7ts, a ≤ (0 : ℚ) := by
    intro a ha
    rw [hm a ha]
  have h5 : ∀ a ∈ c7ts, (3600 : ℚ) < 4000 - a := by
    intro a ha
    rw [hm a ha]
    norm_num
  exact ⟨⟨h1, h2, h3, h4, h5⟩, c7_rate_limiter_window c7ts 0 4000 h1 h2 h3 h4 h5⟩

/-- C10: every stored team name is the HTML-escape of the first 25 code
points of the submitted name (default "Team A"/"Team B" when absent) and
the stored description is the HTML-escape of the first 35 code points of
the submitted location; because truncation happens before escaping, an
input of 26 ampersands yields a stored, escaped name of 125 characters —
longer than 25 — and escaping-then-truncating would give a different
string. -/
theorem c10_truncate_before_escape :
    (∀ f : CreateForm,
      (createMatchNames f).aName = htmlEscape (strTake (f.aName.getD "Team A") 25) ∧
      (createMatchNames f).bName = htmlEscape (strTake (f.bName.getD "Team B") 25) ∧
      (createMatchNames f).desc = htmlEscape (strTake (f.mLoc.getD "") 35)) ∧
    ∃ input : String,
      25 < (htmlEscape (strTake input 25)).length ∧
      htmlEscape (strTake input 25) ≠ strTake (htmlEscape input) 25 ∧
      25 < (createMatchNames
        { aName := some input, bName := none, mLoc := none }).aName.length := by
  refine ⟨fun f => ⟨rfl, rfl, rfl⟩, "&&&&&&&&&&&&&&&&&&&&&&&&&&", ?_, ?_, ?_⟩ <;> decide

/-! ## C4: round-trip of the JSON layer -/

theorem toNat_ofNat_small (m : Nat) (h : m < 55296) : (Char.ofNat m).toNat = m := by
  have hv : m.isValidChar := Or.inl h
  rw [Char.ofNat, dif_pos hv]
  simp [Char.ofNatAux, Char.toNat, UInt32.toNat, UInt32.ofNat']

theorem parseLit_append : ∀ (lit rest : List Char), parseLit lit (lit ++ rest) = some rest := by
  intro lit
  induction lit with
  | nil => intro rest; rfl
  | cons c cs ih =>
      intro rest
      simp [parseLit, ih]

theorem hexVal_hexDigitChar : ∀ d, d < 16 → hexVal? (hexDigitChar d) = some d := by
  decide

theorem parseHex4_hex4 (n : Nat) (h : n < 65536) (rest : List Char) :
    parseHex4 (hex4 n ++ rest) = some (n, rest) := by
  have h1 := hexVal_hexDigitChar (n / 4096 % 16) (Nat.mod_lt _ (by norm_num))
  have h2 := hexVal_hexDigitChar (n / 256 % 16) (Nat.mod_lt _ (by norm_num))
  have h3 := hexVal_hexDigitChar (n / 16 % 16) (Nat.mod_lt _ (by norm_num))
  have h4 := hexVal_hexDigitChar (n % 16) (Nat.mod_lt _ (by norm_num))
  simp only [hex4, List.cons_append, List.nil_append, parseHex4, h1, h2, h3, h4]
  congr 1
  congr 1
  omega

theorem digitVal_digitChar : ∀ d, d < 10 → digitVal? (Char.ofNat (48 + d)) = some d := by
  decide

theorem munchDigits_append : ∀ (ds : List Nat), (∀ d ∈ ds, d < 10) →
    ∀ rest, noDigitHead rest →
    munchDigits (ds.map (fun d => Char.ofNat (48 + d)) ++ rest) = (ds, rest) := by
  intro ds
  induction ds with
  | nil =>
      intro _ rest hr
      cases rest with
      | nil => rfl
      | cons c cs =>
          simp only [List.map_nil, List.nil_append, munchDigits]
          rw [hr]
  | cons d ds ih =>
      intro hds rest hr
      have hd : d < 10 := hds d (List.mem_cons_self _ _)
      have hds' : ∀ x ∈ ds, x < 10 := fun x hx => hds x (List.mem_cons_of_mem _ hx)
      simp only [List.map_cons, List.cons_append, munchDigits,
        digitVal_digitChar d hd, List.append_eq, ih hds' rest hr]

theorem parseNat_natChars (n : Nat) (rest : List Char) (hr : noDigitHead rest) :
    parseNat (natChars n ++ rest) = some (n, rest) := by
  by_cases h0 : n = 0
  · subst h0
    have hm := munchDigits_append [0] (by simp) rest hr
    simp only [List.map_cons, List.map_nil, Nat.add_zero] at hm
    have h00 : natChars 0 = [Char.ofNat 48] := rfl
    rw [h00]
    simp only [parseNat, hm]
    norm_num [Nat.ofDigits]
  · have hlt : ∀ d ∈ (Nat.digits 10 n).reverse, d < 10 := by
      intro d hd
      rw [List.mem_reverse] at hd
      exact Nat.digits_lt_base (by norm_num) hd
    have hmm := munchDigits_append ((Nat.digits 10 n).reverse) hlt rest hr
    have hne : Nat.digits 10 n ≠ [] := Nat.digits_ne_nil_iff_ne_zero.mpr h0
    have hne2 : (Nat.digits 10 n).reverse ≠ [] := by
      intro hcon
      rw [List.reverse_eq_nil_iff] at hcon
      exact hne hcon
    rw [natChars, if_neg h0]
    simp only [parseNat, hmm, if_neg hne2, List.reverse_reverse, Nat.ofDigits_digits]

theorem parseEsc_u (l : List Char) :
    parseEsc (Char.ofNat 117 :: l) =
      (match parseHex4 l with
       | none => none
       | some (n, rest2) =>
         if 55296 ≤ n ∧ n < 56320 then
           match rest2 with
           | b1 :: u1 :: rest3 =>
             if b1 = backslashC ∧ u1 = Char.ofNat 117 then
               match parseHex4 rest3 with
               | some (n2, rest4) =>
                 if 56320 ≤ n2 ∧ n2 < 57344 then
                   some (Char.ofNat (65536 + (n - 55296) * 1024 + (n2 - 56320)), rest4)
                 else none
               | none => none
             else none
           | _ => none
         else some (Char.ofNat n, rest2)) := rfl

theorem char_valid_ranges (c : Char) :
    c.toNat < 55296 ∨ (57343 < c.toNat ∧ c.toNat < 1114112) := c.valid

theorem escJChar_spec (c : Char) :
    (escJChar c = [c] ∧ c ≠ quoteC ∧ c ≠ backslashC) ∨
    (∃ t, escJChar c = backslashC :: t ∧
      ∀ rest, parseEsc (t ++ rest) = some (c, rest)) := by
  by_cases hq : c = quoteC
  · right
    refine ⟨[quoteC], by rw [escJChar, if_pos hq], ?_⟩
    intro rest
    rw [hq]
    rfl
  by_cases hb : c = backslashC
  · right
    refine ⟨[backslashC], by rw [escJChar, if_neg hq, if_pos hb], ?_⟩
    intro rest
    rw [hb]
    rfl
  by_cases h8 : c.toNat = 8
  · right
    refine ⟨[Char.ofNat 98], by rw [escJChar, if_neg hq, if_neg hb, if_pos h8], ?_⟩
    intro rest
    have hc : c = Char.ofNat 8 := by rw [← h8, Char.ofNat_toNat]
    rw [hc]
    rfl
  by_cases h9 : c.toNat = 9
  · right
    refine ⟨[Char.ofNat 116],
      by rw [escJChar, if_neg hq, if_neg hb, if_neg h8, if_pos h9], ?_⟩
    intro rest
    have hc : c = Char.ofNat 9 := by rw [← h9, Char.ofNat_toNat]
    rw [hc]
    rfl
  by_cases h10 : c.toNat = 10
  · right
    refine ⟨[Char.ofNat 110],
      by rw [escJChar, if_neg hq, if_neg hb, if_neg h8, if_neg h9, if_pos h10], ?_⟩
    intro rest
    have hc : c = Char.ofNat 10 := by rw [← h10, Char.ofNat_toNat]
    rw [hc]
    rfl
  by_cases h12 : c.toNat = 12
  · right
    refine ⟨[Char.ofNat 102],
      by rw [escJChar, if_neg hq, if_neg hb, if_neg h8, if_neg h9, if_neg h10, if_pos h12], ?_⟩
    intro rest
    have hc : c = Char.ofNat 12 := by rw [← h12, Char.ofNat_toNat]
    rw [hc]
    rfl
  by_cases h13 : c.toNat = 13
  · right
    refine ⟨[Char.ofNat 114],
      by rw [escJChar, if_neg hq, if_neg hb, if_neg h8, if_neg h9, if_neg h10, if_neg h12,
        if_pos h13], ?_⟩
    intro rest
    have hc : c = Char.ofNat 13 := by rw [← h13, Char.ofNat_toNat]
    rw [hc]
    rfl
  by_cases h32 : c.toNat < 32
  · right
    refine ⟨Char.ofNat 117 :: hex4 c.toNat,
      by rw [escJChar, if_neg hq, if_neg hb, if_neg h8, if_neg h9, if_neg h10, if_neg h12,
        if_neg h13, if_pos h32], ?_⟩
    intro rest
    rw [List.cons_append, parseEsc_u, parseHex4_hex4 c.toNat (by omega) rest]
    have hns : ¬(55296 ≤ c.toNat ∧ c.toNat < 56320) := by omega
    simp only [if_neg hns, Char.ofNat_toNat]
  by_cases h127 : c.toNat < 127
  · left
    refine ⟨?_, hq, hb⟩
    rw [escJChar, if_neg hq, if_neg hb, if_neg h8, if_neg h9, if_neg h10, if_neg h12,
      if_neg h13, if_neg h32, if_pos h127]
  by_cases h64k : c.toNat < 65536
  · right
    refine ⟨Char.ofNat 117 :: hex4 c.toNat,
      by rw [escJChar, if_neg hq, if_neg hb, if_neg h8, if_neg h9, if_neg h10, if_neg h12,
        if_neg h13, if_neg h32, if_neg h127, if_pos h64k], ?_⟩
    intro rest
    rw [List.cons_append, parseEsc_u, parseHex4_hex4 c.toNat (by omega) rest]
    have hns : ¬(55296 ≤ c.toNat ∧ c.toNat < 56320) := by
      rcases char_valid_ranges c with h | ⟨h1, h2⟩ <;> omega
    simp only [if_neg hns, Char.ofNat_toNat]
  · right
    have hub : c.toNat < 1114112 := by
      rcases char_valid_ranges c with h | ⟨h1, h2⟩ <;> omega
    refine ⟨Char.ofNat 117 :: hex4 (55296 + (c.toNat - 65536) / 1024) ++
        backslashC :: Char.ofNat 117 :: hex4 (56320 + (c.toNat - 65536) % 1024),
      by rw [escJChar, if_neg hq, if_neg hb, if_neg h8, if_neg h9, if_neg h10, if_neg h12,
        if_neg h13, if_neg h32, if_neg h127, if_neg h64k]; simp, ?_⟩
    intro rest
    have hhi : 55296 + (c.toNat - 65536) / 1024 < 65536 := by omega
    have hlo : 56320 + (c.toNat - 65536) % 1024 < 65536 := by
      have := Nat.mod_lt (c.toNat - 65536) (y := 1024) (by norm_num)
      omega
    simp only [List.cons_append, List.append_assoc, List.append_eq, List.nil_append]
    rw [parseEsc_u,
      parseHex4_hex4 _ hhi (backslashC :: Char.ofNat 117 ::
        (hex4 (56320 + (c.toNat - 65536) % 1024) ++ rest))]
    have his : 55296 ≤ 55296 + (c.toNat - 65536) / 1024 ∧
        55296 + (c.toNat - 65536) / 1024 < 56320 := by
      have : (c.toNat - 65536) / 1024 < 1024 := by omega
      omega
    simp only [if_pos his, List.cons_append, if_pos (And.intro rfl rfl),
      parseHex4_hex4 _ hlo rest]
    have hls : 56320 ≤ 56320 + (c.toNat - 65536) % 1024 ∧
        56320 + (c.toNat - 65536) % 1024 < 57344 := by
      have := Nat.mod_lt (c.toNat - 65536) (y := 1024) (by norm_num)
      omega
    simp only [if_pos hls, if_true, and_self]
    have harith : 65536 + (55296 + (c.toNat - 65536) / 1024 - 55296) * 1024 +
        (56320 + (c.toNat - 65536) % 1024 - 56320) = c.toNat := by
      have h1 : 55296 + (c.toNat - 65536) / 1024 - 55296 = (c.toNat - 65536) / 1024 := by omega
      have h2 : 56320 + (c.toNat - 65536) % 1024 - 56320 = (c.toNat - 65536) % 1024 := by omega
      rw [h1, h2]
      have := Nat.div_add_mod (c.toNat - 65536) 1024
      omega
    rw [harith, Char.ofNat_toNat]

theorem escChars_nil : escChars [] = [] := rfl

theorem escChars_cons (c : Char) (l : List Char) :
    escChars (c :: l) = escJChar c ++ escChars l := by
  simp [escChars]

theorem escJChar_ne_nil (c : Char) : escJChar c ≠ [] := by
  rcases escJChar_spec c with ⟨he, -, -⟩ | ⟨t, he, -⟩ <;> rw [he] <;> simp

theorem length_le_escChars : ∀ l : List Char, l.length ≤ (escChars l).length := by
  intro l
  induction l with
  | nil => simp [escChars_nil]
  | cons c cs ih =>
      rw [escChars_cons, List.length_append, List.length_cons]
      have := List.length_pos.mpr (escJChar_ne_nil c)
      omega

theorem parseJStrAux_inv : ∀ (l : List Char) (fuel : Nat) (rest : List Char),
    l.length < fuel →
    parseJStrAux fuel (escChars l ++ quoteC :: rest) = some (l, rest) := by
  intro l
  induction l with
  | nil =>
      intro fuel rest hf
      cases fuel with
      | zero => omega
      | succ f => simp [escChars_nil, parseJStrAux]
  | cons c cs ih =>
      intro fuel rest hf
      cases fuel with
      | zero => omega
      | succ f =>
          have hcs : cs.length < f := by
            rw [List.length_cons] at hf
            omega
          rcases escJChar_spec c with ⟨he, hq, hb⟩ | ⟨t, he, hp⟩
          · rw [escChars_cons, he]
            simp only [List.cons_append, List.nil_append, List.append_eq, parseJStrAux,
              if_neg hq, if_neg hb]
            rw [ih f rest hcs]
          · rw [escChars_cons, he]
            have hbq : ¬(backslashC = quoteC) := by decide
            simp only [List.cons_append, List.append_eq, parseJStrAux, if_neg hbq,
              if_pos rfl, if_true]
            rw [List.append_assoc, hp (escChars cs ++ quoteC :: rest)]
            simp only [ih f rest hcs]

theorem parseJStr_dump (s : String) (rest : List Char) :
    parseJStr (dumpJStr s ++ rest) = some (s, rest) := by
  have hlen : s.data.length < (escChars s.data ++ quoteC :: rest).length := by
    rw [List.length_append, List.length_cons]
    have := length_le_escChars s.data
    omega
  simp only [dumpJStr, List.cons_append, List.append_assoc, List.singleton_append,
    List.nil_append]
  simp only [parseJStr, if_pos rfl, if_true]
  rw [parseJStrAux_inv s.data _ rest hlen]

theorem natChars_ne_nil (n : Nat) : natChars n ≠ [] := by
  by_cases h0 : n = 0
  · subst h0
    simp [natChars]
  · rw [natChars, if_neg h0]
    simp only [ne_eq, List.map_eq_nil_iff, List.reverse_eq_nil_iff]
    exact Nat.digits_ne_nil_iff_ne_zero.mpr h0

theorem natChars_all_digit (n : Nat) : ∀ c ∈ natChars n, (digitVal? c).isSome := by
  intro c hc
  by_cases h0 : n = 0
  · subst h0
    rw [show natChars 0 = [Char.ofNat 48] from rfl, List.mem_singleton] at hc
    subst hc
    decide
  · rw [natChars, if_neg h0] at hc
    obtain ⟨d, hd, rfl⟩ := List.mem_map.mp hc
    rw [List.mem_reverse] at hd
    rw [digitVal_digitChar d (Nat.digits_lt_base (by norm_num) hd)]
    rfl

theorem noDigitHead_cons (c : Char) (l : List Char) (h : digitVal? c = none) :
    noDigitHead (c :: l) := h

theorem joinComma_cons2 (x y : List Char) (ys : List (List Char)) :
    joinComma (x :: y :: ys) = x ++ Char.ofNat 44 :: joinComma (y :: ys) := rfl

theorem joinComma_length_ge : ∀ ls : List (List Char), (∀ x ∈ ls, x ≠ []) →
    ls.length ≤ (joinComma ls).length := by
  intro ls
  induction ls with
  | nil => intro _; simp [joinComma]
  | cons x xs ih =>
      intro hne
      cases xs with
      | nil =>
          have := List.length_pos.mpr (hne x (List.mem_cons_self _ _))
          simpa [joinComma] using this
      | cons y ys =>
          rw [joinComma_cons2]
          simp only [List.length_append, List.length_cons]
          have h1 := List.length_pos.mpr (hne x (List.mem_cons_self _ _))
          have h2 := ih (fun z hz => hne z (List.mem_cons_of_mem _ hz))
          rw [List.length_cons] at h2
          omega

theorem parseNatListAux_inv : ∀ (l : List Nat), l ≠ [] → ∀ (fuel : Nat) (rest : List Char),
    l.length ≤ fuel →
    parseNatListAux fuel (joinComma (l.map natChars) ++ Char.ofNat 93 :: rest)
      = some (l, rest) := by
  intro l
  induction l with
  | nil => intro h; exact absurd rfl h
  | cons n l ih =>
      intro _ fuel rest hf
      cases fuel with
      | zero =>
          rw [List.length_cons] at hf
          omega
      | succ f =>
          cases l with
          | nil =>
              simp only [List.map_cons, List.map_nil, joinComma, parseNatListAux]
              rw [parseNat_natChars n (Char.ofNat 93 :: rest)
                (noDigitHead_cons _ _ (by decide))]
              simp
          | cons m l2 =>
              have hf2 : (m :: l2).length ≤ f := by
                rw [List.length_cons] at hf
                omega
              simp only [List.map_cons, joinComma_cons2] at ih ⊢
              simp only [parseNatListAux, List.append_assoc, List.cons_append]
              rw [parseNat_natChars n _ (noDigitHead_cons _ _ (by decide))]
              have hih := ih (by simp) f rest hf2
              simp only [List.append_assoc, List.cons_append] at hih
              simp [hih]

theorem parseNatList_dump : ∀ (l : List Nat) (rest : List Char),
    parseNatList (dumpNatList l ++ rest) = some (l, rest) := by
  intro l rest
  cases l with
  | nil => simp [dumpNatList, joinComma, parseNatList]
  | cons n l2 =>
      obtain ⟨c, T, hT, hdig⟩ : ∃ c T, joinComma ((n :: l2).map natChars) = c :: T ∧
          (digitVal? c).isSome := by
        obtain ⟨c, cr, hnc⟩ : ∃ c cr, natChars n = c :: cr := by
          cases hx : natChars n with
          | nil => exact absurd hx (natChars_ne_nil n)
          | cons c cr => exact ⟨c, cr, rfl⟩
        have hcd : (digitVal? c).isSome :=
          natChars_all_digit n c (by rw [hnc]; exact List.mem_cons_self _ _)
        cases l2 with
        | nil =>
            exact ⟨c, cr, by simp only [List.map_cons, List.map_nil, joinComma, hnc], hcd⟩
        | cons m l3 =>
            exact ⟨c, cr ++ Char.ofNat 44 :: joinComma ((m :: l3).map natChars),
              by simp only [List.map_cons, joinComma_cons2, hnc, List.cons_append], hcd⟩
      have hcne : ¬(c = Char.ofNat 93) := by
        intro hcon
        have h93 : digitVal? (Char.ofNat 93) = none := by decide
        rw [hcon, h93] at hdig
        simp at hdig
      have hb := joinComma_length_ge ((n :: l2).map natChars)
        (by
          intro x hx
          obtain ⟨k, -, rfl⟩ := List.mem_map.mp hx
          exact natChars_ne_nil k)
      rw [List.length_map] at hb
      have hinv := parseNatListAux_inv (n :: l2) (by simp)
        (joinComma ((n :: l2).map natChars) ++ Char.ofNat 93 :: rest).length rest
        (by
          simp only [List.length_append, List.length_cons] at hb ⊢
          omega)
      rw [dumpNatList]
      simp only [List.cons_append, List.append_assoc, List.singleton_append]
      rw [hT]
      simp only [List.cons_append, parseNatList, if_pos rfl, if_neg hcne, if_true]
      rw [← List.cons_append, ← hT]
      exact hinv

theorem dumpNatList_ne_nil (l : List Nat) : dumpNatList l ≠ [] := by
  simp [dumpNatList]

theorem dumpNatList_cons_form (l : List Nat) :
    dumpNatList l = Char.ofNat 91 :: (joinComma (l.map natChars) ++ [Char.ofNat 93]) := rfl

theorem parseHistAux_inv : ∀ (h : List (List Nat)), h ≠ [] → ∀ (fuel : Nat) (rest : List Char),
    h.length ≤ fuel →
    parseHistAux fuel (joinComma (h.map dumpNatList) ++ Char.ofNat 93 :: rest)
      = some (h, rest) := by
  intro h
  induction h with
  | nil => intro hh; exact absurd rfl hh
  | cons n l ih =>
      intro _ fuel rest hf
      cases fuel with
      | zero =>
          rw [List.length_cons] at hf
          omega
      | succ f =>
          cases l with
          | nil =>
              simp only [List.map_cons, List.map_nil, joinComma, parseHistAux]
              rw [parseNatList_dump n (Char.ofNat 93 :: rest)]
              simp
          | cons m l2 =>
              have hf2 : (m :: l2).length ≤ f := by
                rw [List.length_cons] at hf
                omega
              simp only [List.map_cons, joinComma_cons2] at ih ⊢
              simp only [parseHistAux, List.append_assoc, List.cons_append]
              rw [parseNatList_dump n _]
              have hih := ih (by simp) f rest hf2
              simp only [List.append_assoc, List.cons_append] at hih
              simp [hih]

theorem parseHist_dump : ∀ (h : List (List Nat)) (rest : List Char),
    parseHist (dumpHist h ++ rest) = some (h, rest) := by
  intro h rest
  cases h with
  | nil => simp [dumpHist, joinComma, parseHist]
  | cons n l2 =>
      have hne93 : ¬(Char.ofNat 91 = Char.ofNat 93) := by decide
      obtain ⟨T, hT⟩ : ∃ T, joinComma ((n :: l2).map dumpNatList) = Char.ofNat 91 :: T := by
        cases l2 with
        | nil =>
            exact ⟨joinComma (n.map natChars) ++ [Char.ofNat 93],
              by simp only [List.map_cons, List.map_nil, joinComma, dumpNatList_cons_form]⟩
        | cons m l3 =>
            exact ⟨(joinComma (n.map natChars) ++ [Char.ofNat 93]) ++
                Char.ofNat 44 :: joinComma ((m :: l3).map dumpNatList),
              by simp only [List.map_cons, joinComma_cons2, dumpNatList_cons_form,
                List.cons_append, List.append_assoc]⟩
      have hb := joinComma_length_ge ((n :: l2).map dumpNatList)
        (by
          intro x hx
          obtain ⟨k, -, rfl⟩ := List.mem_map.mp hx
          exact dumpNatList_ne_nil k)
      rw [List.length_map] at hb
      have hinv := parseHistAux_inv (n :: l2) (by simp)
        (joinComma ((n :: l2).map dumpNatList) ++ Char.ofNat 93 :: rest).length rest
        (by
          simp only [List.length_append, List.length_cons] at hb ⊢
          omega)
      rw [dumpHist]
      simp only [List.cons_append, List.append_assoc, List.singleton_append]
      rw [hT]
      simp only [List.cons_append, parseHist, if_pos rfl, if_neg hne93, if_true]
      rw [← List.cons_append, ← hT]
      exact hinv

theorem parseTeam_dump (t : ArchiveTeam) (rest : List Char) :
    parseTeam (dumpTeam t ++ rest) = some (t, rest) := by
  have h1 : dumpTeam t ++ rest
      = (lbraceC :: keyLit (Char.ofNat 110)) ++ (dumpJStr t.n ++
          ((Char.ofNat 44 :: keyLit (Char.ofNat 98)) ++ (dumpJStr t.b ++
            ((Char.ofNat 44 :: keyLit (Char.ofNat 102)) ++ (dumpJStr t.f ++
              ([rbraceC] ++ rest)))))) := by
    simp [dumpTeam, keyLit, List.append_assoc]
  rw [h1]
  simp only [parseTeam, parseLit_append, parseJStr_dump]

theorem parseLit_cons_append (c : Char) (cs rest : List Char) :
    parseLit (c :: cs) (c :: (cs ++ rest)) = some rest := by
  rw [← List.cons_append]
  exact parseLit_append (c :: cs) rest

theorem parseLit_single (c : Char) (rest : List Char) :
    parseLit [c] (c :: rest) = some rest := by
  simp [parseLit]

theorem parseRecord_dump (r : ArchiveRecord) (rest : List Char) :
    parseRecord (dumpRecord r ++ rest) = some (r, rest) := by
  have h1 : dumpRecord r ++ rest
      = (lbraceC :: keyLit (Char.ofNat 118)) ++
          (natChars r.v ++
            Char.ofNat 44 ::
              (keyLit (Char.ofNat 100) ++
                (natChars r.d ++
                  Char.ofNat 44 ::
                    (keyLit (Char.ofNat 108) ++
                      (dumpJStr r.l ++
                        Char.ofNat 44 ::
                          (keyLit (Char.ofNat 97) ++
                            (dumpTeam r.a ++
                              Char.ofNat 44 ::
                                (keyLit (Char.ofNat 98) ++
                                  (dumpTeam r.b ++
                                    Char.ofNat 44 ::
                                      (keyLit (Char.ofNat 104) ++
                                        (dumpHist r.h ++ rbraceC :: rest))))))))))) := by
    simp [dumpRecord, keyLit, List.append_assoc]
  rw [h1]
  simp only [parseRecord, parseLit_append]
  rw [parseNat_natChars r.v _ (noDigitHead_cons _ _ (by decide))]
  simp only [parseLit_cons_append]
  rw [parseNat_natChars r.d _ (noDigitHead_cons _ _ (by decide))]
  simp only [parseLit_cons_append, parseJStr_dump, parseTeam_dump, parseHist_dump,
    parseLit_single]

theorem ascii_nil : AsciiL [] := by
  intro c hc
  cases hc

theorem ascii_cons {c : Char} {l : List Char} (hc : c.toNat < 128) (hl : AsciiL l) :
    AsciiL (c :: l) := by
  intro x hx
  rcases List.mem_cons.mp hx with rfl | hx
  · exact hc
  · exact hl x hx

theorem ascii_append {a b : List Char} (ha : AsciiL a) (hb : AsciiL b) :
    AsciiL (a ++ b) := by
  intro x hx
  rcases List.mem_append.mp hx with h | h
  · exact ha x h
  · exact hb x h

theorem hexDigitChar_ascii : ∀ d, d < 16 → (hexDigitChar d).toNat < 128 := by
  decide

theorem hex4_ascii (n : Nat) : AsciiL (hex4 n) := by
  intro c hc
  simp only [hex4, List.mem_cons, List.mem_singleton, List.not_mem_nil, or_false] at hc
  rcases hc with rfl | rfl | rfl | rfl <;>
    exact hexDigitChar_ascii _ (Nat.mod_lt _ (by norm_num))

theorem escJChar_ascii (c : Char) : AsciiL (escJChar c) := by
  by_cases hq : c = quoteC
  · rw [escJChar, if_pos hq]
    intro x hx
    simp only [List.mem_cons, List.mem_singleton, List.not_mem_nil, or_false] at hx
    rcases hx with rfl | rfl <;> decide
  by_cases hb : c = backslashC
  · rw [escJChar, if_neg hq, if_pos hb]
    intro x hx
    simp only [List.mem_cons, List.mem_singleton, List.not_mem_nil, or_false] at hx
    rcases hx with rfl | rfl <;> decide
  by_cases h8 : c.toNat = 8
  · rw [escJChar, if_neg hq, if_neg hb, if_pos h8]
    intro x hx
    simp only [List.mem_cons, List.mem_singleton, List.not_mem_nil, or_false] at hx
    rcases hx with rfl | rfl <;> decide
  by_cases h9 : c.toNat = 9
  · rw [escJChar, if_neg hq, if_neg hb, if_neg h8, if_pos h9]
    intro x hx
    simp only [List.mem_cons, List.mem_singleton, List.not_mem_nil, or_false] at hx
    rcases hx with rfl | rfl <;> decide
  by_cases h10 : c.toNat = 10
  · rw [escJChar, if_neg hq, if_neg hb, if_neg h8, if_neg h9, if_pos h10]
    intro x hx
    simp only [List.mem_cons, List.mem_singleton, List.not_mem_nil, or_false] at hx
    rcases hx with rfl | rfl <;> decide
  by_cases h12 : c.toNat = 12
  · rw [escJChar, if_neg hq, if_neg hb, if_neg h8, if_neg h9, if_neg h10, if_pos h12]
    intro x hx
    simp only [List.mem_cons, List.mem_singleton, List.not_mem_nil, or_false] at hx
    rcases hx with rfl | rfl <;> decide
  by_cases h13 : c.toNat = 13
  · rw [escJChar, if_neg hq, if_neg hb, if_neg h8, if_neg h9, if_neg h10, if_neg h12,
      if_pos h13]
    intro x hx
    simp only [List.mem_cons, List.mem_singleton, List.not_mem_nil, or_false] at hx
    rcases hx with rfl | rfl <;> decide
  by_cases h32 : c.toNat < 32
  · rw [escJChar, if_neg hq, if_neg hb, if_neg h8, if_neg h9, if_neg h10, if_neg h12,
      if_neg h13, if_pos h32]
    refine ascii_cons (by decide) (ascii_cons (by decide) (hex4_ascii _))
  by_cases h127 : c.toNat < 127
  · rw [escJChar, if_neg hq, if_neg hb, if_neg h8, if_neg h9, if_neg h10, if_neg h12,
      if_neg h13, if_neg h32, if_pos h127]
    intro x hx
    rw [List.mem_singleton] at hx
    subst hx
    omega
  by_cases h64k : c.toNat < 65536
  · rw [escJChar, if_neg hq, if_neg hb, if_neg h8, if_neg h9, if_neg h10, if_neg h12,
      if_neg h13, if_neg h32, if_neg h127, if_pos h64k]
    exact ascii_cons (by decide) (ascii_cons (by decide) (hex4_ascii _))
  · rw [escJChar, if_neg hq, if_neg hb, if_neg h8, if_neg h9, if_neg h10, if_neg h12,
      if_neg h13, if_neg h32, if_neg h127, if_neg h64k]
    refine ascii_cons (by decide) (ascii_cons (by decide) (ascii_append (hex4_ascii _)
      (ascii_cons (by decide) (ascii_cons (by decide) (hex4_ascii _)))))

theorem escChars_ascii : ∀ l : List Char, AsciiL (escChars l) := by
  intro l
  induction l with
  | nil =>
      rw [escChars_nil]
      exact ascii_nil
  | cons c cs ih =>
      rw [escChars_cons]
      exact ascii_append (escJChar_ascii c) ih

theorem dumpJStr_ascii (s : String) : AsciiL (dumpJStr s) :=
  ascii_cons (by decide) (ascii_append (escChars_ascii s.data)
    (ascii_cons (by decide) ascii_nil))

theorem natChars_ascii (n : Nat) : AsciiL (natChars n) := by
  intro c hc
  by_cases h0 : n = 0
  · subst h0
    rw [show natChars 0 = [Char.ofNat 48] from rfl, List.mem_singleton] at hc
    subst hc
    decide
  · rw [natChars, if_neg h0] at hc
    obtain ⟨d, hd, rfl⟩ := List.mem_map.mp hc
    rw [List.mem_reverse] at hd
    have hd10 := Nat.digits_lt_base (by norm_num) hd
    rw [toNat_ofNat_small (48 + d) (by omega)]
    omega

theorem joinComma_ascii : ∀ ls : List (List Char), (∀ x ∈ ls, AsciiL x) →
    AsciiL (joinComma ls) := by
  intro ls
  induction ls with
  | nil =>
      intro _
      exact ascii_nil
  | cons x xs ih =>
      intro hls
      cases xs with
      | nil => exact hls x (List.mem_cons_self _ _)
      | cons y ys =>
          rw [joinComma_cons2]
          exact ascii_append (hls x (List.mem_cons_self _ _))
            (ascii_cons (by decide) (ih (fun z hz => hls z (List.mem_cons_of_mem _ hz))))

theorem dumpNatList_ascii (l : List Nat) : AsciiL (dumpNatList l) := by
  rw [dumpNatList]
  refine ascii_cons (by decide) (ascii_append (joinComma_ascii _ ?_)
    (ascii_cons (by decide) ascii_nil))
  intro x hx
  obtain ⟨k, -, rfl⟩ := List.mem_map.mp hx
  exact natChars_ascii k

theorem dumpHist_ascii (h : List (List Nat)) : AsciiL (dumpHist h) := by
  rw [dumpHist]
  refine ascii_cons (by decide) (ascii_append (joinComma_ascii _ ?_)
    (ascii_cons (by decide) ascii_nil))
  intro x hx
  obtain ⟨k, -, rfl⟩ := List.mem_map.mp hx
  exact dumpNatList_ascii k

theorem keyLit_ascii (k : Char) (hk : k.toNat < 128) : AsciiL (keyLit k) :=
  ascii_cons (by decide) (ascii_cons hk (ascii_cons (by decide)
    (ascii_cons (by decide) ascii_nil)))

theorem dumpTeam_ascii (t : ArchiveTeam) : AsciiL (dumpTeam t) := by
  rw [dumpTeam]
  simp only [List.append_assoc]
  refine ascii_cons (by decide) (ascii_append (keyLit_ascii _ (by decide))
    (ascii_append (dumpJStr_ascii _) (ascii_cons (by decide)
      (ascii_append (keyLit_ascii _ (by decide)) (ascii_append (dumpJStr_ascii _)
        (ascii_cons (by decide) (ascii_append (keyLit_ascii _ (by decide))
          (ascii_append (dumpJStr_ascii _) (ascii_cons (by decide) ascii_nil)))))))))

theorem dumpRecord_ascii (r : ArchiveRecord) : AsciiL (dumpRecord r) := by
  rw [dumpRecord]
  simp only [List.append_assoc]
  refine ascii_cons (by decide) (ascii_append (keyLit_ascii _ (by decide))
    (ascii_append (natChars_ascii _) (ascii_cons (by decide)
      (ascii_append (keyLit_ascii _ (by decide)) (ascii_append (natChars_ascii _)
        (ascii_cons (by decide) (ascii_append (keyLit_ascii _ (by decide))
          (ascii_append (dumpJStr_ascii _) (ascii_cons (by decide)
            (ascii_append (keyLit_ascii _ (by decide)) (ascii_append (dumpTeam_ascii _)
              (ascii_cons (by decide) (ascii_append (keyLit_ascii _ (by decide))
                (ascii_append (dumpTeam_ascii _) (ascii_cons (by decide)
                  (ascii_append (keyLit_ascii _ (by decide))
                    (ascii_append (dumpHist_ascii _)
                      (ascii_cons (by decide) ascii_nil))))))))))))))))))

theorem asciiDecode_strBytes : ∀ l : List Char, AsciiL l →
    asciiDecode (strBytes l) = some l := by
  intro l
  induction l with
  | nil => intro _; rfl
  | cons c cs ih =>
      intro hl
      have hc : c.toNat < 128 := hl c (List.mem_cons_self _ _)
      have hcs : AsciiL cs := fun x hx => hl x (List.mem_cons_of_mem _ hx)
      simp only [strBytes, List.map_cons, asciiDecode, if_pos hc]
      rw [show List.map Char.toNat cs = strBytes cs from rfl, ih hcs, Char.ofNat_toNat]

theorem b64val_b64char : ∀ n, n < 64 → b64val? (b64char n) = some n := by
  decide

theorem b64char_ne_pad : ∀ n, n < 64 → b64char n ≠ padC := by
  decide

theorem padToken_cons4 (a b c d : Char) (l : List Char) :
    padToken (a :: b :: c :: d :: l) = a :: b :: c :: d :: padToken l := by
  simp only [padToken, List.length_cons, List.cons_append]
  have : (l.length + 1 + 1 + 1 + 1) % 4 = l.length % 4 := by omega
  rw [this]

theorem bdiv16 (m q : Nat) (hm : m ≤ 3) (hq : q ≤ 15) : (m * 16 + q) / 16 = m := by
  omega

theorem bmod16 (m q : Nat) (hm : m ≤ 3) (hq : q ≤ 15) : (m * 16 + q) % 16 = q := by
  omega

theorem bdiv4 (m q : Nat) (hm : m ≤ 15) (hq : q ≤ 3) : (m * 4 + q) / 4 = m := by
  omega

theorem bmod4 (m q : Nat) (hm : m ≤ 15) (hq : q ≤ 3) : (m * 4 + q) % 4 = q := by
  omega

theorem bdiv16s (m : Nat) : m * 16 / 16 = m := by
  omega

theorem bdiv4s (m : Nat) : m * 4 / 4 = m := by
  omega

theorem b64_roundtrip_aux : ∀ (k : Nat) (bs : List Nat), bs.length ≤ k →
    (∀ x ∈ bs, x < 256) →
    b64decode (padToken (b64encodeRaw bs)) = some bs := by
  intro k
  induction k with
  | zero =>
      intro bs hl _
      rw [Nat.le_zero, List.length_eq_zero] at hl
      subst hl
      rfl
  | succ k ih =>
      intro bs hl hb
      match bs with
      | [] => rfl
      | [b1] =>
          have hb1 : b1 < 256 := hb b1 (List.mem_cons_self _ _)
          have hv1 : b1 / 4 < 64 := by omega
          have hv2 : b1 % 4 * 16 < 64 := by omega
          show b64decode (padToken [b64char (b1 / 4), b64char (b1 % 4 * 16)]) = some [b1]
          rw [show padToken [b64char (b1 / 4), b64char (b1 % 4 * 16)]
            = [b64char (b1 / 4), b64char (b1 % 4 * 16), padC, padC] from rfl]
          simp only [b64decode, b64val_b64char _ hv1, b64val_b64char _ hv2,
            if_pos (And.intro rfl (And.intro rfl rfl))]
          rw [bdiv16s (b1 % 4)]
          have hx1 : b1 / 4 * 4 + b1 % 4 = b1 := by omega
          rw [hx1]
          simp
      | [b1, b2] =>
          have hb1 : b1 < 256 := hb b1 (List.mem_cons_self _ _)
          have hb2 : b2 < 256 := hb b2 (by simp)
          have hv1 : b1 / 4 < 64 := by omega
          have hv2 : b1 % 4 * 16 + b2 / 16 < 64 := by omega
          have hv3 : b2 % 16 * 4 < 64 := by omega
          show b64decode (padToken [b64char (b1 / 4), b64char (b1 % 4 * 16 + b2 / 16),
            b64char (b2 % 16 * 4)]) = some [b1, b2]
          rw [show padToken [b64char (b1 / 4), b64char (b1 % 4 * 16 + b2 / 16),
            b64char (b2 % 16 * 4)] = [b64char (b1 / 4), b64char (b1 % 4 * 16 + b2 / 16),
              b64char (b2 % 16 * 4), padC] from rfl]
          have hne : ¬(b64char (b2 % 16 * 4) = padC ∧ padC = padC ∧ ([] : List Char) = []) :=
            fun hcon => b64char_ne_pad _ hv3 hcon.1
          simp only [b64decode, b64val_b64char _ hv1, b64val_b64char _ hv2,
            b64val_b64char _ hv3, if_neg hne, if_pos (And.intro rfl rfl)]
          rw [bdiv16 (b1 % 4) (b2 / 16) (by omega) (by omega),
            bmod16 (b1 % 4) (b2 / 16) (by omega) (by omega), bdiv4s (b2 % 16)]
          have hx1 : b1 / 4 * 4 + b1 % 4 = b1 := by omega
          have hx2 : b2 / 16 * 16 + b2 % 16 = b2 := by omega
          rw [hx1, hx2]
          simp [b64char_ne_pad _ hv3]
      | b1 :: b2 :: b3 :: bs2 =>
          have hb1 : b1 < 256 := hb b1 (List.mem_cons_self _ _)
          have hb2 : b2 < 256 := hb b2 (by simp)
          have hb3 : b3 < 256 := hb b3 (by simp)
          have hbs2 : ∀ x ∈ bs2, x < 256 := by
            intro x hx
            exact hb x (by simp [hx])
          have hl2 : bs2.length ≤ k := by
            simp only [List.length_cons] at hl
            omega
          have hv1 : b1 / 4 < 64 := by omega
          have hv2 : b1 % 4 * 16 + b2 / 16 < 64 := by omega
          have hv3 : b2 % 16 * 4 + b3 / 64 < 64 := by omega
          have hv4 : b3 % 64 < 64 := by omega
          show b64decode (padToken (b64char (b1 / 4) :: b64char (b1 % 4 * 16 + b2 / 16) ::
            b64char (b2 % 16 * 4 + b3 / 64) :: b64char (b3 % 64) :: b64encodeRaw bs2))
            = some (b1 :: b2 :: b3 :: bs2)
          rw [padToken_cons4]
          have hne3 : ¬(b64char (b2 % 16 * 4 + b3 / 64) = padC ∧
              b64char (b3 % 64) = padC ∧ padToken (b64encodeRaw bs2) = []) :=
            fun hcon => b64char_ne_pad _ hv3 hcon.1
          have hne4 : ¬(b64char (b3 % 64) = padC ∧ padToken (b64encodeRaw bs2) = []) :=
            fun hcon => b64char_ne_pad _ hv4 hcon.1
          simp only [b64decode, b64val_b64char _ hv1, b64val_b64char _ hv2,
            b64val_b64char _ hv3, b64val_b64char _ hv4, if_neg hne3, if_neg hne4,
            ih bs2 hl2 hbs2]
          rw [bdiv16 (b1 % 4) (b2 / 16) (by omega) (by omega),
            bmod16 (b1 % 4) (b2 / 16) (by omega) (by omega),
            bdiv4 (b2 % 16) (b3 / 64) (by omega) (by omega),
            bmod4 (b2 % 16) (b3 / 64) (by omega) (by omega)]
          have hx1 : b1 / 4 * 4 + b1 % 4 = b1 := by omega
          have hx2 : b2 / 16 * 16 + b2 % 16 = b2 := by omega
          have hx3 : b3 / 64 * 64 + b3 % 64 = b3 := by omega
          rw [hx1, hx2, hx3]

theorem b64_roundtrip (bs : List Nat) (hb : ∀ x ∈ bs, x < 256) :
    b64decode (padToken (b64encodeRaw bs)) = some bs :=
  b64_roundtrip_aux bs.length bs (le_refl _) hb

theorem parseRecord_dump_nil (r : ArchiveRecord) :
    parseRecord (dumpRecord r) = some (r, []) := by
  have := parseRecord_dump r []
  rwa [List.append_nil] at this

/-- C4: the archive codec round-trips exactly.  For every static record,
every dynamic match state (zero sealed sets and five sealed sets
included), every encode timestamp and every lossless byte compressor
(zlib being one), `decode_state` applied to the token produced by
`encode_match_state` — restore the stripped base64 padding to a multiple
of four, urlsafe-base64-decode, decompress, parse the compact JSON —
returns exactly the record that was encoded, carrying the schema
version 2, the timestamp, the description, both teams' names and
colors, and the full history. -/
theorem c4_codec_roundtrip (z : Compressor) (st : MatchStatic) (m : MatchDyn) (ts : Nat) :
    decodeState z (encodeMatchState z st m ts) = some (buildRecord st m ts) ∧
    (buildRecord st m ts).v = 2 ∧
    (buildRecord st m ts).d = ts ∧
    (buildRecord st m ts).l = st.desc ∧
    (buildRecord st m ts).a = { n := st.a.name, b := st.a.colorBg, f := st.a.colorFg } ∧
    (buildRecord st m ts).b = { n := st.b.name, b := st.b.colorBg, f := st.b.colorFg } ∧
    (buildRecord st m ts).h = m.history := by
  refine ⟨?_, rfl, rfl, rfl, rfl, rfl, rfl⟩
  have hascii := dumpRecord_ascii (buildRecord st m ts)
  have hbytes : ∀ x ∈ strBytes (dumpRecord (buildRecord st m ts)), x < 256 := by
    intro x hx
    obtain ⟨c, hc, rfl⟩ := List.mem_map.mp hx
    have := hascii c hc
    omega
  have hcomp := z.bounded _ hbytes
  have hdata : (String.mk (b64encodeRaw
      (z.compress (strBytes (dumpRecord (buildRecord st m ts)))))).data
      = b64encodeRaw (z.compress (strBytes (dumpRecord (buildRecord st m ts)))) := rfl
  simp only [encodeMatchState, decodeState, hdata, b64_roundtrip _ hcomp, z.rt,
    asciiDecode_strBytes _ hascii, parseRecord_dump_nil]

/-- Witness for C4: the identity compressor at a fresh match (zero sealed
sets) and at a finished five-set match. -/
theorem c4_codec_roundtrip_witness :
    decodeState idCompressor (encodeMatchState idCompressor c4st (initMatch 0) 1700000000)
      = some (buildRecord c4st (initMatch 0) 1700000000) ∧
    decodeState idCompressor (encodeMatchState idCompressor c4st c4m5 1700000000)
      = some (buildRecord c4st c4m5 1700000000) :=
  ⟨(c4_codec_roundtrip idCompressor c4st (initMatch 0) 1700000000).1,
   (c4_codec_roundtrip idCompressor c4st c4m5 1700000000).1⟩

end VBScore
